import Mathlib

/-!
Verification of the GBLN typed data-interchange format (gbln-swift).

The repository ships the C interface header
`Sources/GBLN/CGBLNModule/include/gbln.h`; the lexer, parser, serializer,
value model and file codec behind that interface are specified in the
accompanying natural-language specification.  This development gives a
shallow embedding of that core: the typed value tree, the lexer and
recursive-descent parser, the compact and pretty serializers, the value
model operations, and the file-codec byte-level dispatch, together with
proofs of the specified properties (round-trip, range enforcement,
duplicate-key rejection, string bounds, magic-byte detection, and the
diagnostics channel discipline).
-/

namespace GBLN

/-- Error kinds, mirroring the `GblnErrorCode` enum of `gbln.h`
(`Ok` is represented by `Except.ok`, so it is not a constructor here). -/
inductive ErrKind where
  | unexpectedChar
  | unterminatedString
  | unexpectedToken
  | unexpectedEof
  | invalidSyntax
  | intOutOfRange
  | stringTooLong
  | typeMismatch
  | invalidTypeHint
  | duplicateKey
  | nullPointer
  | io
  deriving DecidableEq

/-- Modelled from the spec: a Diagnostic carries a kind, a human-readable
message and an optional remediation suggestion.  (The spec also records a
source position; no verified claim depends on it, so the position is not
modelled.) -/
structure Diag where
  kind : ErrKind
  message : String
  suggestion : Option String
  deriving DecidableEq

/-- Canonical message text per error kind. -/
def kindMessage : ErrKind → String
  | ErrKind.unexpectedChar => "unexpected character"
  | ErrKind.unterminatedString => "unterminated string literal"
  | ErrKind.unexpectedToken => "unexpected token"
  | ErrKind.unexpectedEof => "unexpected end of input"
  | ErrKind.invalidSyntax => "invalid syntax"
  | ErrKind.intOutOfRange => "integer literal out of range for its width"
  | ErrKind.stringTooLong => "string exceeds its declared maximum length"
  | ErrKind.typeMismatch => "type mismatch"
  | ErrKind.invalidTypeHint => "invalid type hint"
  | ErrKind.duplicateKey => "duplicate object key"
  | ErrKind.nullPointer => "required argument was absent"
  | ErrKind.io => "input output failure"

/-- Canonical suggestion text per error kind (the spec names deterministic
suggestions for unterminated strings and out-of-range integers). -/
def kindSuggestion : ErrKind → Option String
  | ErrKind.unterminatedString => some "close the string with a matching quote"
  | ErrKind.intOutOfRange => some "did you mean a smaller integer width?"
  | _ => none

/-- Build the Diagnostic for a given error kind. -/
def mkDiag (k : ErrKind) : Diag :=
  { kind := k, message := kindMessage k, suggestion := kindSuggestion k }

mutual
/-- Modelled from the spec: the typed value tree (the Rust `Value` behind
the opaque `GblnValue` of `gbln.h` is not in the sources).  Variants follow
`GblnValueType`: signed and unsigned integers of width 8/16/32/64, floats
of width 32/64, bounded strings, booleans, null, ordered objects and
arrays.  A float is represented by its decimal literal content: mantissa
`m` and scale `s` denote the number `m / 10 ^ s` (binary floating point is
outside the shallow embedding; the spec treats float literals textually
and imposes no float range check). -/
inductive Value where
  | i8 (v : Int)
  | i16 (v : Int)
  | i32 (v : Int)
  | i64 (v : Int)
  | u8 (v : Nat)
  | u16 (v : Nat)
  | u32 (v : Nat)
  | u64 (v : Nat)
  | f32 (m : Int) (s : Nat)
  | f64 (m : Int) (s : Nat)
  | str (content : String) (bound : Option Nat)
  | bool (b : Bool)
  | null
  | object (fields : Fields)
  | array (elems : Elems)

/-- Ordered fields of an object: keys with values, insertion order
preserved. -/
inductive Fields where
  | nil
  | cons (key : String) (val : Value) (rest : Fields)

/-- Ordered elements of an array. -/
inductive Elems where
  | nil
  | cons (val : Value) (rest : Elems)
end

/-- Key membership in the field list of an object. -/
def hasKeyF : Fields → String → Bool
  | Fields.nil, _ => false
  | Fields.cons k _ r, key => k = key || hasKeyF r key

/-- Concatenation of field lists (insertion at the end preserves
insertion order). -/
def appendF : Fields → Fields → Fields
  | Fields.nil, gs => gs
  | Fields.cons k v r, gs => Fields.cons k v (appendF r gs)

/-- Concatenation of element lists. -/
def appendE : Elems → Elems → Elems
  | Elems.nil, gs => gs
  | Elems.cons v r, gs => Elems.cons v (appendE r gs)

mutual
/-- Modelled from the spec: structural validity of a value tree.  Every
numeric value fits its width, float scales are at least one (a float
literal always shows at least one fractional digit), string contents
respect their declared bound, and object keys are unique. -/
def validV : Value → Bool
  | Value.i8 v => decide (-128 ≤ v ∧ v ≤ 127)
  | Value.i16 v => decide (-32768 ≤ v ∧ v ≤ 32767)
  | Value.i32 v => decide (-2147483648 ≤ v ∧ v ≤ 2147483647)
  | Value.i64 v => decide (-9223372036854775808 ≤ v ∧ v ≤ 9223372036854775807)
  | Value.u8 v => decide (v ≤ 255)
  | Value.u16 v => decide (v ≤ 65535)
  | Value.u32 v => decide (v ≤ 4294967295)
  | Value.u64 v => decide (v ≤ 18446744073709551615)
  | Value.f32 _ s => decide (1 ≤ s)
  | Value.f64 _ s => decide (1 ≤ s)
  | Value.str c b => match b with
    | none => true
    | some n => decide (c.length ≤ n)
  | Value.bool _ => true
  | Value.null => true
  | Value.object fs => validF fs && nodupKeys fs
  | Value.array es => validE es

/-- Validity of every field value. -/
def validF : Fields → Bool
  | Fields.nil => true
  | Fields.cons _ v r => validV v && validF r

/-- Validity of every array element. -/
def validE : Elems → Bool
  | Elems.nil => true
  | Elems.cons v r => validV v && validE r

/-- Keys of a field list are pairwise distinct. -/
def nodupKeys : Fields → Bool
  | Fields.nil => true
  | Fields.cons k _ r => !hasKeyF r k && nodupKeys r
end

/-- Decimal digit character for a digit value below ten. -/
def digitChar (n : Nat) : Char := Char.ofNat (48 + n)

/-- Fuel-driven most-significant-first decimal digit printer. -/
def natDigsAux : Nat → Nat → List Char
  | 0, _ => []
  | fuel + 1, n =>
    if n < 10 then [digitChar n]
    else natDigsAux fuel (n / 10) ++ [digitChar (n % 10)]

/-- Decimal digits of a natural number, most significant first, no
leading zeros (a single zero digit for zero). -/
def natDigs (n : Nat) : List Char := natDigsAux (n + 1) n

/-- Exactly `k` decimal digits of `f`, most significant first, with
leading zeros (used for the fractional part of float literals). -/
def fixedDigs : Nat → Nat → List Char
  | 0, _ => []
  | k + 1, f => fixedDigs k (f / 10) ++ [digitChar (f % 10)]

/-- Read a run of decimal digits, accumulating their value and counting
them; stops at the first non-digit. -/
def readDigits : Nat → Nat → List Char → Nat × Nat × List Char
  | acc, cnt, [] => (acc, cnt, [])
  | acc, cnt, c :: cs =>
    if c.isDigit then readDigits (acc * 10 + (c.toNat - 48)) (cnt + 1) cs
    else (acc, cnt, c :: cs)

/-- The lexical shape of the part of a numeric literal after the integer
digits: nothing, a fractional part (its value and its digit count), or an
exponent part. -/
inductive NumTail where
  | int
  | frac (f : Nat) (fc : Nat)
  | exp (en : Bool) (e : Nat)
  deriving DecidableEq

/-- Modelled from the spec: the token alphabet produced by the lexer:
punctuation, string literals (decoded), numeric literals (sign, integer
digits, tail, raw width-suffix text), boolean and null literals, and bare
identifiers (usable as object keys). -/
inductive Token where
  | lbrace
  | rbrace
  | lbrack
  | rbrack
  | colon
  | comma
  | str (s : String)
  | num (neg : Bool) (i : Nat) (tail : NumTail) (sfx : String)
  | tbool (b : Bool)
  | tnull
  | ident (s : String)
  deriving DecidableEq

/-- Decode one escape character of a string literal (quote, backslash and
the common control characters). -/
def unescChar (e : Char) : Option Char :=
  if e = '"' then some '"'
  else if e = '\\' then some '\\'
  else if e = 'n' then some '\n'
  else if e = 't' then some '\t'
  else if e = 'r' then some '\r'
  else none

/-- Split off the leading alphanumeric run (used for width suffixes and
word tokens). -/
def spanAlnum : List Char → List Char × List Char
  | [] => ([], [])
  | c :: cs =>
    if c.isAlphanum then
      match spanAlnum cs with
      | (w, rest) => (c :: w, rest)
    else ([], c :: cs)

/-- Read the body of a string literal after the opening quote, decoding
escapes, up to the closing quote; missing close quote is
`UnterminatedString`, an unknown escape is `UnexpectedChar`. -/
def readStrChars : List Char → Except Diag (List Char × List Char)
  | [] => Except.error (mkDiag ErrKind.unterminatedString)
  | c :: cs =>
    if c = '"' then Except.ok ([], cs)
    else if c = '\\' then
      match cs with
      | [] => Except.error (mkDiag ErrKind.unterminatedString)
      | e :: cs' =>
        match unescChar e with
        | some d => (readStrChars cs').map (fun p => (d :: p.1, p.2))
        | none => Except.error (mkDiag ErrKind.unexpectedChar)
    else (readStrChars cs).map (fun p => (c :: p.1, p.2))

/-- Read exponent digits after the exponent marker and optional sign. -/
def expDigits (en : Bool) (cs : List Char) : Except Diag (NumTail × List Char) :=
  match readDigits 0 0 cs with
  | (e, ec, rest) =>
    if ec = 0 then Except.error (mkDiag ErrKind.invalidSyntax)
    else Except.ok (NumTail.exp en e, rest)

/-- Read the tail of a numeric literal after its integer digits: either a
fractional part, an exponent part, or nothing (the grammar allows a
fractional part or an exponent, not both). -/
def numTailRead : List Char → Except Diag (NumTail × List Char)
  | [] => Except.ok (NumTail.int, [])
  | c :: rest =>
    if c = '.' then
      match readDigits 0 0 rest with
      | (f, fc, rest3) =>
        if fc = 0 then Except.error (mkDiag ErrKind.invalidSyntax)
        else Except.ok (NumTail.frac f fc, rest3)
    else if c = 'e' then
      match rest with
      | [] => Except.error (mkDiag ErrKind.unexpectedEof)
      | c2 :: rest2 =>
        if c2 = '-' then expDigits true rest2
        else if c2 = '+' then expDigits false rest2
        else expDigits false (c2 :: rest2)
    else Except.ok (NumTail.int, c :: rest)

/-- Read one numeric literal (after its optional sign): integer digits, a
tail, and a trailing alphanumeric width-suffix run (possibly empty). -/
def readNumber (neg : Bool) (cs : List Char) : Except Diag (Token × List Char) :=
  match readDigits 0 0 cs with
  | (i, cnt, rest) =>
    if cnt = 0 then Except.error (mkDiag ErrKind.unexpectedChar)
    else
      match numTailRead rest with
      | Except.error d => Except.error d
      | Except.ok (t, rest2) =>
        match spanAlnum rest2 with
        | (sfx, rest3) => Except.ok (Token.num neg i t (String.mk sfx), rest3)

/-- Drop the remainder of a line comment: everything up to (but not
including) the next newline. -/
def dropToEol : List Char → List Char
  | [] => []
  | c :: cs => if c = '\n' then c :: cs else dropToEol cs

/-- Classify an alphanumeric word: the boolean literals, the null
literal, or a bare identifier. -/
def classifyWord (w : List Char) : Token :=
  if w = "true".data then Token.tbool true
  else if w = "false".data then Token.tbool false
  else if w = "null".data then Token.tnull
  else Token.ident (String.mk w)

/-- Read one string-literal token (after the opening quote). -/
def strTokRead (cs : List Char) : Except Diag (Option Token × List Char) :=
  match readStrChars cs with
  | Except.error d => Except.error d
  | Except.ok (s, rest) => Except.ok (some (Token.str (String.mk s)), rest)

/-- Read one numeric token. -/
def numTokRead (neg : Bool) (cs : List Char) : Except Diag (Option Token × List Char) :=
  match readNumber neg cs with
  | Except.error d => Except.error d
  | Except.ok (t, rest) => Except.ok (some t, rest)

/-- Read one numeric token after a sign character: a digit must follow. -/
def signRead (neg : Bool) (cs : List Char) : Except Diag (Option Token × List Char) :=
  match cs with
  | [] => Except.error (mkDiag ErrKind.unexpectedChar)
  | d :: _ =>
    if d.isDigit then numTokRead neg cs
    else Except.error (mkDiag ErrKind.unexpectedChar)

/-- Read one word token (boolean, null, or bare identifier). -/
def wordRead (c : Char) (cs : List Char) : Except Diag (Option Token × List Char) :=
  Except.ok (some (classifyWord (spanAlnum (c :: cs)).1), (spanAlnum (c :: cs)).2)

/-- Modelled from the spec: one lexer step on the first character of the
remaining input.  Whitespace separates tokens (`none`), line comments run
from the comment marker to end of line and are discarded (`none`), and
the failure kinds are `UnexpectedChar` and `UnterminatedString`. -/
def lexStep (c : Char) (cs : List Char) : Except Diag (Option Token × List Char) :=
  if c.isWhitespace then Except.ok (none, cs)
  else if c = '{' then Except.ok (some Token.lbrace, cs)
  else if c = '}' then Except.ok (some Token.rbrace, cs)
  else if c = '[' then Except.ok (some Token.lbrack, cs)
  else if c = ']' then Except.ok (some Token.rbrack, cs)
  else if c = ':' then Except.ok (some Token.colon, cs)
  else if c = ',' then Except.ok (some Token.comma, cs)
  else if c = '#' then Except.ok (none, dropToEol cs)
  else if c = '"' then strTokRead cs
  else if c.isDigit then numTokRead false (c :: cs)
  else if c = '-' ∨ c = '+' then signRead (decide (c = '-')) cs
  else if c.isAlpha then wordRead c cs
  else Except.error (mkDiag ErrKind.unexpectedChar)

/-- Modelled from the spec: the lexer loop, one `lexStep` per token (or
skipped whitespace/comment run).  The fuel argument dominates the input
length; it only exists to make the recursion structural. -/
def lexGo : Nat → List Char → Except Diag (List Token)
  | 0, _ => Except.error (mkDiag ErrKind.invalidSyntax)
  | _ + 1, [] => Except.ok []
  | fuel + 1, c :: cs =>
    match lexStep c cs with
    | Except.error d => Except.error d
    | Except.ok (none, rest) => lexGo fuel rest
    | Except.ok (some t, rest) => (lexGo fuel rest).map (t :: ·)

/-- Lex a character list with adequate fuel. -/
def lexL (cs : List Char) : Except Diag (List Token) := lexGo (cs.length + 1) cs

/-- Modelled from the spec: the lexer, turning source text into a token
stream. -/
def lex (s : String) : Except Diag (List Token) := lexL s.data

mutual
/-- Every string bound in the tree is the default unbounded one (the text
grammar has no syntax for string bounds, so only such trees can round-trip
their bounds). -/
def noBoundsV : Value → Bool
  | Value.str _ b => b.isNone
  | Value.object fs => noBoundsF fs
  | Value.array es => noBoundsE es
  | _ => true

/-- Apply `noBoundsV` to every field value. -/
def noBoundsF : Fields → Bool
  | Fields.nil => true
  | Fields.cons _ v r => noBoundsV v && noBoundsF r

/-- Apply `noBoundsV` to every array element. -/
def noBoundsE : Elems → Bool
  | Elems.nil => true
  | Elems.cons v r => noBoundsV v && noBoundsE r
end

/-- Apply the sign of a literal to its magnitude. -/
def signApply (neg : Bool) (n : Nat) : Int :=
  if neg then -(n : Int) else (n : Int)

/-- The eight integer widths a suffix can name. -/
inductive IntW where
  | i8
  | i16
  | i32
  | i64
  | u8
  | u16
  | u32
  | u64
  deriving DecidableEq

/-- Lower bound of an integer width. -/
def IntW.lo : IntW → Int
  | IntW.i8 => -128
  | IntW.i16 => -32768
  | IntW.i32 => -2147483648
  | IntW.i64 => -9223372036854775808
  | IntW.u8 => 0
  | IntW.u16 => 0
  | IntW.u32 => 0
  | IntW.u64 => 0

/-- Upper bound of an integer width. -/
def IntW.hi : IntW → Int
  | IntW.i8 => 127
  | IntW.i16 => 32767
  | IntW.i32 => 2147483647
  | IntW.i64 => 9223372036854775807
  | IntW.u8 => 255
  | IntW.u16 => 65535
  | IntW.u32 => 4294967295
  | IntW.u64 => 18446744073709551615

/-- Suffix text of an integer width. -/
def IntW.sfxStr : IntW → String
  | IntW.i8 => "i8"
  | IntW.i16 => "i16"
  | IntW.i32 => "i32"
  | IntW.i64 => "i64"
  | IntW.u8 => "u8"
  | IntW.u16 => "u16"
  | IntW.u32 => "u32"
  | IntW.u64 => "u64"

/-- Build the value of an integer width from the (range-checked) integer. -/
def mkIntV : IntW → Int → Value
  | IntW.i8, v => Value.i8 v
  | IntW.i16, v => Value.i16 v
  | IntW.i32, v => Value.i32 v
  | IntW.i64, v => Value.i64 v
  | IntW.u8, v => Value.u8 v.toNat
  | IntW.u16, v => Value.u16 v.toNat
  | IntW.u32, v => Value.u32 v.toNat
  | IntW.u64, v => Value.u64 v.toNat

/-- Range test for an integer width. -/
def intFits (w : IntW) (v : Int) : Bool := decide (w.lo ≤ v ∧ v ≤ w.hi)

/-- The two float widths a suffix can name. -/
inductive FloatW where
  | f32
  | f64
  deriving DecidableEq

/-- Build a float value of the given width from mantissa and scale. -/
def mkFltV : FloatW → Int → Nat → Value
  | FloatW.f32, m, s => Value.f32 m s
  | FloatW.f64, m, s => Value.f64 m s

/-- Recognize a width suffix: one of the eight integer widths or the two
float widths; anything else is unknown. -/
def parseSfxStr (s : String) : Option (IntW ⊕ FloatW) :=
  if s = "i8" then some (Sum.inl IntW.i8)
  else if s = "i16" then some (Sum.inl IntW.i16)
  else if s = "i32" then some (Sum.inl IntW.i32)
  else if s = "i64" then some (Sum.inl IntW.i64)
  else if s = "u8" then some (Sum.inl IntW.u8)
  else if s = "u16" then some (Sum.inl IntW.u16)
  else if s = "u32" then some (Sum.inl IntW.u32)
  else if s = "u64" then some (Sum.inl IntW.u64)
  else if s = "f32" then some (Sum.inr FloatW.f32)
  else if s = "f64" then some (Sum.inr FloatW.f64)
  else none

/-- Mantissa and scale denoted by a numeric literal read as a float: an
integer literal is widened (one zero fractional digit), a fractional
literal keeps its digits, an exponent literal is normalized to scale at
least one. -/
def fltOfTail (neg : Bool) (i : Nat) : NumTail → Int × Nat
  | NumTail.int => (signApply neg (i * 10), 1)
  | NumTail.frac f fc => (signApply neg (i * 10 ^ fc + f), fc)
  | NumTail.exp en e =>
    if en = true ∧ e ≠ 0 then (signApply neg i, e)
    else (signApply neg (i * 10 ^ (e + 1)), 1)

/-- Modelled from the spec: type resolution and validation of a numeric
literal during parse.  No suffix selects the default width (signed 64-bit
for integer literals that fit, 64-bit float otherwise); an integer-width
suffix demands an integer-shaped literal in range (`IntOutOfRange` when
out of range, `TypeMismatch` on a fractional or exponent literal); a
float-width suffix accepts any numeric shape; unknown suffix text is
`InvalidTypeHint`. -/
def resolveNum (neg : Bool) (i : Nat) (t : NumTail) (sfx : String) : Except Diag Value :=
  if sfx = "" then
    match t with
    | NumTail.int =>
      if intFits IntW.i64 (signApply neg i) then Except.ok (Value.i64 (signApply neg i))
      else Except.error (mkDiag ErrKind.intOutOfRange)
    | t' => Except.ok (mkFltV FloatW.f64 (fltOfTail neg i t').1 (fltOfTail neg i t').2)
  else
    match parseSfxStr sfx with
    | none => Except.error (mkDiag ErrKind.invalidTypeHint)
    | some (Sum.inl w) =>
      match t with
      | NumTail.int =>
        if intFits w (signApply neg i) then Except.ok (mkIntV w (signApply neg i))
        else Except.error (mkDiag ErrKind.intOutOfRange)
      | _ => Except.error (mkDiag ErrKind.typeMismatch)
    | some (Sum.inr w) => Except.ok (mkFltV w (fltOfTail neg i t).1 (fltOfTail neg i t).2)

/-- A key token: a string literal or a bare identifier. -/
def keyOfToken : Token → Option String
  | Token.str s => some s
  | Token.ident s => some s
  | _ => none

/-- The three parser activities: parse one value, parse the remaining
fields of a nonempty object (accumulated fields so far), parse the
remaining elements of a nonempty array. -/
inductive PJob where
  | val (ts : List Token)
  | objFields (acc : Fields) (ts : List Token)
  | arrElems (acc : Elems) (ts : List Token)

/-- Modelled from the spec: the recursive-descent parser over the token
stream.  Exactly one value per job; a duplicate key fails with
`DuplicateKey` and discards the object under construction; a token that
cannot start the expected production is `UnexpectedToken`; missing tokens
are `UnexpectedEof`.  The fuel argument dominates the nesting depth; it
only exists to make the recursion structural. -/
def parseRun : Nat → PJob → Except Diag (Value × List Token)
  | 0, _ => Except.error (mkDiag ErrKind.invalidSyntax)
  | fuel + 1, PJob.val ts =>
    match ts with
    | [] => Except.error (mkDiag ErrKind.unexpectedEof)
    | Token.lbrace :: ts2 =>
      match ts2 with
      | Token.rbrace :: ts3 => Except.ok (Value.object Fields.nil, ts3)
      | _ => parseRun fuel (PJob.objFields Fields.nil ts2)
    | Token.lbrack :: ts2 =>
      match ts2 with
      | Token.rbrack :: ts3 => Except.ok (Value.array Elems.nil, ts3)
      | _ => parseRun fuel (PJob.arrElems Elems.nil ts2)
    | Token.str s :: ts2 => Except.ok (Value.str s none, ts2)
    | Token.num neg i t sfx :: ts2 =>
      match resolveNum neg i t sfx with
      | Except.ok v => Except.ok (v, ts2)
      | Except.error d => Except.error d
    | Token.tbool b :: ts2 => Except.ok (Value.bool b, ts2)
    | Token.tnull :: ts2 => Except.ok (Value.null, ts2)
    | _ => Except.error (mkDiag ErrKind.unexpectedToken)
  | fuel + 1, PJob.objFields acc ts =>
    match ts with
    | [] => Except.error (mkDiag ErrKind.unexpectedEof)
    | k :: ts2 =>
      match keyOfToken k with
      | none => Except.error (mkDiag ErrKind.unexpectedToken)
      | some key =>
        match ts2 with
        | Token.colon :: ts3 =>
          match parseRun fuel (PJob.val ts3) with
          | Except.error d => Except.error d
          | Except.ok (v, ts4) =>
            if hasKeyF acc key then Except.error (mkDiag ErrKind.duplicateKey)
            else
              match ts4 with
              | Token.comma :: ts5 =>
                parseRun fuel (PJob.objFields (appendF acc (Fields.cons key v Fields.nil)) ts5)
              | Token.rbrace :: ts5 =>
                Except.ok (Value.object (appendF acc (Fields.cons key v Fields.nil)), ts5)
              | _ :: _ => Except.error (mkDiag ErrKind.unexpectedToken)
              | [] => Except.error (mkDiag ErrKind.unexpectedEof)
        | _ :: _ => Except.error (mkDiag ErrKind.unexpectedToken)
        | [] => Except.error (mkDiag ErrKind.unexpectedEof)
  | fuel + 1, PJob.arrElems acc ts =>
    match parseRun fuel (PJob.val ts) with
    | Except.error d => Except.error d
    | Except.ok (v, ts2) =>
      match ts2 with
      | Token.comma :: ts3 =>
        parseRun fuel (PJob.arrElems (appendE acc (Elems.cons v Elems.nil)) ts3)
      | Token.rbrack :: ts3 =>
        Except.ok (Value.array (appendE acc (Elems.cons v Elems.nil)), ts3)
      | _ :: _ => Except.error (mkDiag ErrKind.unexpectedToken)
      | [] => Except.error (mkDiag ErrKind.unexpectedEof)

/-- Parse a token stream into exactly one root value; trailing tokens
after the root value are rejected (strict end-of-input handling). -/
def parseToks (ts : List Token) : Except Diag Value :=
  match parseRun (ts.length + 1) (PJob.val ts) with
  | Except.error d => Except.error d
  | Except.ok (v, []) => Except.ok v
  | Except.ok (_, _ :: _) => Except.error (mkDiag ErrKind.unexpectedToken)

/-- Modelled from the spec: `gbln_parse` of `gbln.h` — parse GBLN text
into a value, or fail with a Diagnostic; all-or-nothing (an error result
carries no tree). -/
def gbln_parse (input : String) : Except Diag Value :=
  match lex input with
  | Except.error d => Except.error d
  | Except.ok ts => parseToks ts

mutual
/-- Modelled from the spec: the token stream a value serializes to.
A numeric width suffix is emitted exactly when the width differs from the
implicit default of its kind (signed 64-bit integers and 64-bit floats
carry no suffix), ensuring the parser reconstructs the identical width.
Strings are emitted as quoted literals (a bound has no textual form),
object keys in insertion order. -/
def toksV : Value → List Token
  | Value.i8 v => [Token.num (decide (v < 0)) v.natAbs NumTail.int "i8"]
  | Value.i16 v => [Token.num (decide (v < 0)) v.natAbs NumTail.int "i16"]
  | Value.i32 v => [Token.num (decide (v < 0)) v.natAbs NumTail.int "i32"]
  | Value.i64 v => [Token.num (decide (v < 0)) v.natAbs NumTail.int ""]
  | Value.u8 v => [Token.num false v NumTail.int "u8"]
  | Value.u16 v => [Token.num false v NumTail.int "u16"]
  | Value.u32 v => [Token.num false v NumTail.int "u32"]
  | Value.u64 v => [Token.num false v NumTail.int "u64"]
  | Value.f32 m s =>
    [Token.num (decide (m < 0)) (m.natAbs / 10 ^ s) (NumTail.frac (m.natAbs % 10 ^ s) s) "f32"]
  | Value.f64 m s =>
    [Token.num (decide (m < 0)) (m.natAbs / 10 ^ s) (NumTail.frac (m.natAbs % 10 ^ s) s) ""]
  | Value.str s _ => [Token.str s]
  | Value.bool b => [Token.tbool b]
  | Value.null => [Token.tnull]
  | Value.object fs => Token.lbrace :: toksF fs ++ [Token.rbrace]
  | Value.array es => Token.lbrack :: toksE es ++ [Token.rbrack]

/-- Token stream of object fields, comma separated, insertion order. -/
def toksF : Fields → List Token
  | Fields.nil => []
  | Fields.cons k v Fields.nil => Token.str k :: Token.colon :: toksV v
  | Fields.cons k v (Fields.cons k2 v2 r) =>
    Token.str k :: Token.colon :: toksV v ++
      Token.comma :: toksF (Fields.cons k2 v2 r)

/-- Token stream of array elements, comma separated. -/
def toksE : Elems → List Token
  | Elems.nil => []
  | Elems.cons v Elems.nil => toksV v
  | Elems.cons v (Elems.cons v2 r) => toksV v ++ Token.comma :: toksE (Elems.cons v2 r)
end

/-- Escape one character of string content for output (quote, backslash,
and the common control characters). -/
def escChar (c : Char) : List Char :=
  if c = '"' then ['\\', '"']
  else if c = '\\' then ['\\', '\\']
  else if c = '\n' then ['\\', 'n']
  else if c = '\t' then ['\\', 't']
  else if c = '\r' then ['\\', 'r']
  else [c]

/-- Escape string content for output. -/
def escChars : List Char → List Char
  | [] => []
  | c :: cs => escChar c ++ escChars cs

/-- A string literal: quoted, minimally escaped content. -/
def strLitChars (s : String) : List Char := '"' :: escChars s.data ++ ['"']

/-- Characters of a numeric literal tail. -/
def tailChars : NumTail → List Char
  | NumTail.int => []
  | NumTail.frac f fc => '.' :: fixedDigs fc f
  | NumTail.exp en e => 'e' :: ((if en then ['-'] else []) ++ natDigs e)

/-- Characters of a numeric literal. -/
def numChars (neg : Bool) (i : Nat) (t : NumTail) (sfx : String) : List Char :=
  (if neg then ['-'] else []) ++ natDigs i ++ tailChars t ++ sfx.data

/-- Characters of one token. -/
def tokChars : Token → List Char
  | Token.lbrace => ['{']
  | Token.rbrace => ['}']
  | Token.lbrack => ['[']
  | Token.rbrack => [']']
  | Token.colon => [':']
  | Token.comma => [',']
  | Token.str s => strLitChars s
  | Token.num neg i t sfx => numChars neg i t sfx
  | Token.tbool true => "true".data
  | Token.tbool false => "false".data
  | Token.tnull => "null".data
  | Token.ident s => s.data

/-- Characters of a token stream, with no separating whitespace (compact
mode emits no whitespace beyond what is lexically required, and the token
streams produced by `toksV` need none). -/
def toksChars : List Token → List Char
  | [] => []
  | t :: ts => tokChars t ++ toksChars ts

/-- Indentation: a run of spaces. -/
def spaces (n : Nat) : List Char := List.replicate n ' '

mutual
/-- Modelled from the spec: pretty mode.  Each nesting level is indented
by the configured indent width, each object field and array element is on
its own line, and the same width-suffix rule as compact mode applies
(atoms print exactly their token characters). -/
def serPV (ind lvl : Nat) : Value → List Char
  | Value.object (Fields.cons k v r) =>
    '{' :: '\n' :: serPF ind (lvl + 1) (Fields.cons k v r) ++
      '\n' :: (spaces (ind * lvl) ++ ['}'])
  | Value.array (Elems.cons v r) =>
    '[' :: '\n' :: serPE ind (lvl + 1) (Elems.cons v r) ++
      '\n' :: (spaces (ind * lvl) ++ [']'])
  | v => toksChars (toksV v)

/-- Pretty-printed object fields, one per line. -/
def serPF (ind lvl : Nat) : Fields → List Char
  | Fields.nil => []
  | Fields.cons k v Fields.nil =>
    spaces (ind * lvl) ++ strLitChars k ++ ':' :: ' ' :: serPV ind lvl v
  | Fields.cons k v (Fields.cons k2 v2 r) =>
    spaces (ind * lvl) ++ strLitChars k ++ ':' :: ' ' :: serPV ind lvl v ++
      ',' :: '\n' :: serPF ind lvl (Fields.cons k2 v2 r)

/-- Pretty-printed array elements, one per line. -/
def serPE (ind lvl : Nat) : Elems → List Char
  | Elems.nil => []
  | Elems.cons v Elems.nil => spaces (ind * lvl) ++ serPV ind lvl v
  | Elems.cons v (Elems.cons v2 r) =>
    spaces (ind * lvl) ++ serPV ind lvl v ++ ',' :: '\n' :: serPE ind lvl (Elems.cons v2 r)
end

/-- Configuration, mirroring `GblnConfig` of `gbln.h`: mini mode,
compression toggle and level, indent width, comment stripping. -/
structure GblnConfig where
  mini_mode : Bool
  compress : Bool
  compression_level : Nat
  indent : Nat
  strip_comments : Bool
  deriving DecidableEq

/-- Model of `gbln_config_new_io` of `gbln.h`: the production I/O preset. -/
def gbln_config_new_io : GblnConfig :=
  { mini_mode := true, compress := true, compression_level := 6, indent := 2,
    strip_comments := true }

/-- Model of `gbln_config_new_source` of `gbln.h`: the human-readable preset. -/
def gbln_config_new_source : GblnConfig :=
  { mini_mode := false, compress := false, compression_level := 6, indent := 2,
    strip_comments := false }

/-- Model of `gbln_config_new` of `gbln.h`: a custom configuration. -/
def gbln_config_new (mini_mode compress : Bool) (compression_level indent : Nat)
    (strip_comments : Bool) : GblnConfig :=
  { mini_mode, compress, compression_level, indent, strip_comments }

/-- Modelled from the spec: compact serialization (`serialize_compact`;
`gbln_to_string` of `gbln.h`).  Total over values; deterministic. -/
def serializeCompact (v : Value) : String := String.mk (toksChars (toksV v))

/-- Modelled from the spec: pretty serialization under a configuration
(`serialize_pretty`). Total over values; deterministic. -/
def serializePretty (cfg : GblnConfig) (v : Value) : String :=
  String.mk (serPV cfg.indent 0 v)

/-- Model of `gbln_to_string` of `gbln.h`: compact text, never absent for a value
(the header returns a pointer that is NULL only on failure; serialization
of a well-formed tree cannot fail). -/
def gbln_to_string (v : Value) : Option String := some (serializeCompact v)

/-- Model of `gbln_to_string_pretty` of `gbln.h`: formatted text under the default
source configuration, never absent for a value. -/
def gbln_to_string_pretty (v : Value) : Option String :=
  some (serializePretty gbln_config_new_source v)

/-- Result of a mutating insertion: on success the parent owns the child;
on failure the error code is reported and the rejected child travels back
to the caller (it is neither leaked nor destroyed), resolving the
double-ownership ambiguity exactly as the spec directs. -/
inductive InsertResult where
  | ok (parent : Value)
  | err (code : ErrKind) (child : Value)

/-- Model of `gbln_object_insert` of `gbln.h`: insert a field into an object;
`DuplicateKey` if the key is already present (the object is left
unchanged), `TypeMismatch` if the target is not an object. -/
def gbln_object_insert (obj : Value) (key : String) (child : Value) : InsertResult :=
  match obj with
  | Value.object fs =>
    if hasKeyF fs key then InsertResult.err ErrKind.duplicateKey child
    else InsertResult.ok (Value.object (appendF fs (Fields.cons key child Fields.nil)))
  | _ => InsertResult.err ErrKind.typeMismatch child

/-- Model of `gbln_array_push` of `gbln.h`: append an element to an array;
`TypeMismatch` if the target is not an array. -/
def gbln_array_push (arr : Value) (child : Value) : InsertResult :=
  match arr with
  | Value.array es => InsertResult.ok (Value.array (appendE es (Elems.cons child Elems.nil)))
  | _ => InsertResult.err ErrKind.typeMismatch child

/-- A UTF-8 continuation byte. -/
def isCont (b : Nat) : Bool := decide (128 ≤ b ∧ b < 192)

/-- Strict UTF-8 decoding of a byte sequence: rejects stray continuation
bytes, overlong encodings, surrogate code points and code points past
U+10FFFF; yields the decoded characters otherwise. -/
def utf8Decode : List Nat → Option (List Char)
  | [] => some []
  | b :: bs =>
    if b < 128 then (utf8Decode bs).map (Char.ofNat b :: ·)
    else if b < 194 then none
    else if b < 224 then
      match bs with
      | b1 :: bs' =>
        if isCont b1 then (utf8Decode bs').map (Char.ofNat ((b - 192) * 64 + (b1 - 128)) :: ·)
        else none
      | [] => none
    else if b < 240 then
      match bs with
      | b1 :: b2 :: bs' =>
        if isCont b1 && isCont b2 then
          if 2048 ≤ (b - 224) * 4096 + (b1 - 128) * 64 + (b2 - 128) ∧
              ((b - 224) * 4096 + (b1 - 128) * 64 + (b2 - 128) < 55296 ∨
                57344 ≤ (b - 224) * 4096 + (b1 - 128) * 64 + (b2 - 128)) then
            (utf8Decode bs').map (Char.ofNat ((b - 224) * 4096 + (b1 - 128) * 64 + (b2 - 128)) :: ·)
          else none
        else none
      | _ => none
    else if b < 245 then
      match bs with
      | b1 :: b2 :: b3 :: bs' =>
        if isCont b1 && isCont b2 && isCont b3 then
          if 65536 ≤ (b - 240) * 262144 + (b1 - 128) * 4096 + (b2 - 128) * 64 + (b3 - 128) ∧
              (b - 240) * 262144 + (b1 - 128) * 4096 + (b2 - 128) * 64 + (b3 - 128) ≤ 1114111 then
            (utf8Decode bs').map
              (Char.ofNat ((b - 240) * 262144 + (b1 - 128) * 4096 + (b2 - 128) * 64 + (b3 - 128)) :: ·)
          else none
        else none
      | _ => none
    else none

/-- Model of `gbln_value_new_str` of `gbln.h`: create a string value from raw
bytes with a declared maximum length.  Per the header it yields no value
when the content is not valid UTF-8 or exceeds `max_len`; per the spec the
over-length failure is `StringTooLong` (the header does not name a kind
for invalid UTF-8; it is modelled as `InvalidSyntax`). -/
def gbln_value_new_str (value : List Nat) (max_len : Nat) : Except Diag Value :=
  match utf8Decode value with
  | none => Except.error (mkDiag ErrKind.invalidSyntax)
  | some cs =>
    if cs.length ≤ max_len then Except.ok (Value.str (String.mk cs) (some max_len))
    else Except.error (mkDiag ErrKind.stringTooLong)

/-- The fixed 6-byte XZ magic prefix `FD 37 7A 58 5A 00`. -/
def xzMagic : List Nat := [253, 55, 122, 88, 90, 0]

/-- Hand a byte sequence to the parser (decoding UTF-8 first; a file that
is not UTF-8 text is an I/O-level failure). -/
def parseBytes (bytes : List Nat) : Except Diag Value :=
  match utf8Decode bytes with
  | none => Except.error (mkDiag ErrKind.io)
  | some cs => gbln_parse (String.mk cs)

/-- Modelled from the spec: `gbln_read_io` of `gbln.h`.  Raw file input
is abstracted as the byte list `content`; the external compression
collaborator is abstracted as the `decompress` transform.  The first six
bytes are inspected for the fixed magic prefix: if present the content is
decompressed before its bytes are handed to the parser, otherwise the
bytes are parsed directly; the file name plays no part in the decision. -/
def gbln_read_io (decompress : List Nat → Option (List Nat)) (path : String)
    (content : List Nat) : Except Diag Value :=
  if content.take 6 = xzMagic then
    match decompress content with
    | some bs => parseBytes bs
    | none => Except.error (mkDiag ErrKind.io)
  else parseBytes content

/-- Modelled from the spec: the process-wide last-error slot, as explicit
state.  A call result is recorded into the slot: success clears it (no
stale Diagnostic survives a successful call), failure stores the fresh
Diagnostic. -/
def runCall {α : Type} (r : Except Diag α) (_st : Option Diag) : Option α × Option Diag :=
  match r with
  | Except.ok a => (some a, none)
  | Except.error d => (none, some d)

/-- Model of `gbln_last_error_message` of `gbln.h`: the message of the pending
Diagnostic, absent when no failure is pending. -/
def gbln_last_error_message (st : Option Diag) : Option String :=
  st.map Diag.message

/-- Model of `gbln_last_error_suggestion` of `gbln.h`: the suggestion of the
pending Diagnostic, absent when no failure is pending or the Diagnostic
carries none. -/
def gbln_last_error_suggestion (st : Option Diag) : Option String :=
  st.bind Diag.suggestion

/-- A character stream may directly follow a number or word token without
merging into it: it is empty or starts with a character that is neither
alphanumeric nor a dot. -/
def headSepOK : List Char → Bool
  | [] => true
  | c :: _ => !(c.isAlphanum || c = '.')

/-- The suffix texts the serializer can emit (the empty suffix and the
ten width names). -/
def sfxOKList : List String :=
  ["", "i8", "i16", "i32", "i64", "u8", "u16", "u32", "u64", "f32", "f64"]

/-- Membership in `sfxOKList`. -/
def sfxOK (sfx : String) : Bool := decide (sfx ∈ sfxOKList)

/-- Well-formedness of a numeric-literal tail as the serializer emits it:
a fractional part has at least one digit and a value below its digit
count allows (the serializer never emits exponent form). -/
def tailOK : NumTail → Bool
  | NumTail.int => true
  | NumTail.frac f fc => decide (1 ≤ fc ∧ f < 10 ^ fc)
  | NumTail.exp _ _ => false

mutual
/-- Fuel needed by `parseRun` on the token stream of a value: one plus
the maximal nesting of recursive parse calls. -/
def needV : Value → Nat
  | Value.object fs => 1 + needF fs
  | Value.array es => 1 + needE es
  | _ => 1

/-- Fuel needed by the object-fields job. -/
def needF : Fields → Nat
  | Fields.nil => 0
  | Fields.cons _ v r => 1 + max (needV v) (needF r)

/-- Fuel needed by the array-elements job. -/
def needE : Elems → Nat
  | Elems.nil => 0
  | Elems.cons v r => 1 + max (needV v) (needE r)
end

/-- The text of an integer literal with an explicit width suffix. -/
def intLitStr (neg : Bool) (n : Nat) (w : IntW) : String :=
  String.mk (numChars neg n NumTail.int w.sfxStr)

/-- The value tree of the end-to-end example: three fields in insertion
order — a signed 8-bit 5, a three-element array of default-width signed
64-bit integers, and the string `x` with the default bound. -/
def c2Example : Value :=
  Value.object (Fields.cons "a" (Value.i8 5)
    (Fields.cons "list"
      (Value.array (Elems.cons (Value.i64 1) (Elems.cons (Value.i64 2)
        (Elems.cons (Value.i64 3) Elems.nil))))
      (Fields.cons "name" (Value.str "x" none) Fields.nil)))

/-- A sample valid tree exercising unsigned width tags, negative signed
integers, floats, booleans and strings, used to instantiate the
round-trip theorem. -/
def sampleValue : Value :=
  Value.object (Fields.cons "k" (Value.u8 7)
    (Fields.cons "a"
      (Value.array (Elems.cons (Value.i64 (-3)) (Elems.cons (Value.f64 25 1)
        (Elems.cons (Value.bool true) Elems.nil))))
      (Fields.cons "s" (Value.str "hi" none) Fields.nil)))

/-- The head of a character stream is a decimal digit. -/
def headDigit : List Char → Bool
  | [] => false
  | c :: _ => c.isDigit

/-- The head of a character stream is not alphanumeric. -/
def headNotAlnum : List Char → Bool
  | [] => true
  | c :: _ => !c.isAlphanum

/-- The first suffix character can neither continue a number nor start an
exponent. -/
def sfxHeadOK : List Char → Bool
  | [] => true
  | c :: _ => c.isAlpha && !(c = 'e') && !(c = '.') && !c.isDigit

/-- Mapping over a successful `Except` result. -/
theorem exmap_ok {ε α β : Type} (a : α) (f : α → β) :
    (Except.ok a : Except ε α).map f = Except.ok (f a) := rfl

/-- Mapping over a failed `Except` result. -/
theorem exmap_err {ε α β : Type} (e : ε) (f : α → β) :
    (Except.error e : Except ε α).map f = Except.error e := rfl

/-- Mapping twice over an `Except` result. -/
theorem exmap_map {ε α β γ : Type} (e : Except ε α) (f : α → β) (g : β → γ) :
    (e.map f).map g = e.map (fun x => g (f x)) := by
  cases e <;> rfl

/-- Character-class facts about decimal digit characters, by
enumeration. -/
theorem digitChar_class (d : Nat) (h : d < 10) :
    (digitChar d).isDigit = true ∧ (digitChar d).isWhitespace = false ∧
    digitChar d ≠ '{' ∧ digitChar d ≠ '}' ∧ digitChar d ≠ '[' ∧
    digitChar d ≠ ']' ∧ digitChar d ≠ ':' ∧ digitChar d ≠ ',' ∧
    digitChar d ≠ '#' ∧ digitChar d ≠ '"' ∧ digitChar d ≠ '.' ∧
    digitChar d ≠ 'e' ∧ (digitChar d).isAlphanum = true ∧
    (digitChar d).toNat - 48 = d ∧ (digitChar d).isAlpha = false ∧
    digitChar d ≠ '-' ∧ digitChar d ≠ '+' := by
  interval_cases d <;> exact (by decide)

/-- A digit character is alphanumeric. -/
theorem digit_isAlnum (c : Char) (h : c.isDigit = true) : c.isAlphanum = true := by
  simp [Char.isAlphanum, h]

/-- A stream that may follow a token does not start with a digit. -/
theorem headSepOK_not_digit (cs : List Char) (h : headSepOK cs = true) :
    headDigit cs = false := by
  cases cs with
  | nil => rfl
  | cons c cs' =>
    simp only [headSepOK, Bool.not_eq_true', Bool.or_eq_false_iff] at h
    simp only [headDigit]
    cases hd : c.isDigit with
    | false => rfl
    | true => exact absurd (digit_isAlnum c hd) (by simp [h.1])

/-- Unfolding of `readDigits` on a digit head. -/
theorem readDigits_cons_digit (c : Char) (h : c.isDigit = true) (acc cnt : Nat)
    (cs : List Char) :
    readDigits acc cnt (c :: cs) =
      readDigits (acc * 10 + (c.toNat - 48)) (cnt + 1) cs := by
  simp [readDigits, h]

/-- Reading stops when the head is not a digit. -/
theorem readDigits_stop (acc cnt : Nat) (cs : List Char) (h : headDigit cs = false) :
    readDigits acc cnt cs = (acc, cnt, cs) := by
  cases cs with
  | nil => rfl
  | cons c cs' => simp only [headDigit] at h; simp [readDigits, h]

/-- Fuel does not matter for `natDigsAux` once it dominates the input. -/
theorem natDigsAux_stable (n : Nat) :
    ∀ f g : Nat, n < f → n < g → natDigsAux f n = natDigsAux g n := by
  induction n using Nat.strong_induction_on with
  | _ n ih =>
    intro f g hf hg
    match f, g with
    | f' + 1, g' + 1 =>
      simp only [natDigsAux]
      by_cases h10 : n < 10
      · simp [h10]
      · have hdiv : n / 10 < n := Nat.div_lt_self (by omega) (by omega)
        simp only [h10, if_false]
        rw [ih (n / 10) hdiv f' g' (by omega) (by omega)]

/-- Unfolding equation of `natDigs`. -/
theorem natDigs_eq (n : Nat) :
    natDigs n =
      if n < 10 then [digitChar n]
      else natDigs (n / 10) ++ [digitChar (n % 10)] := by
  show natDigsAux (n + 1) n = _
  simp only [natDigsAux]
  by_cases h10 : n < 10
  · simp [h10]
  · have hdiv : n / 10 < n := Nat.div_lt_self (by omega) (by omega)
    simp only [h10, if_false]
    rw [natDigsAux_stable (n / 10) n (n / 10 + 1) (by omega) (by omega)]
    rfl

/-- The digit list of a number starts with a digit character. -/
theorem natDigs_shape (n : Nat) :
    ∃ d ds, natDigs n = digitChar d :: ds ∧ d < 10 := by
  induction n using Nat.strong_induction_on with
  | _ n ih =>
    rw [natDigs_eq]
    by_cases h10 : n < 10
    · exact ⟨n, [], by simp [h10], h10⟩
    · have hdiv : n / 10 < n := Nat.div_lt_self (by omega) (by omega)
      obtain ⟨d, ds, hds, hd⟩ := ih (n / 10) hdiv
      exact ⟨d, ds ++ [digitChar (n % 10)], by simp [h10, hds], hd⟩

/-- Reading the printed digits of `n` accumulates exactly `n`. -/
theorem readDigits_natDigs (n : Nat) :
    ∀ acc cnt rest, readDigits acc cnt (natDigs n ++ rest) =
      readDigits (acc * 10 ^ (natDigs n).length + n)
        (cnt + (natDigs n).length) rest := by
  induction n using Nat.strong_induction_on with
  | _ n ih =>
    intro acc cnt rest
    by_cases h10 : n < 10
    · rw [natDigs_eq, if_pos h10]
      obtain ⟨h1, -, -, -, -, -, -, -, -, -, -, -, -, h14, -⟩ := digitChar_class n h10
      simp only [List.cons_append, List.nil_append,
        readDigits_cons_digit _ h1, h14, List.length_cons, List.length_nil]
      norm_num
    · have hdiv : n / 10 < n := Nat.div_lt_self (by omega) (by omega)
      have hm : n % 10 < 10 := Nat.mod_lt _ (by omega)
      rw [natDigs_eq, if_neg h10]
      obtain ⟨h1, -, -, -, -, -, -, -, -, -, -, -, -, h14, -⟩ :=
        digitChar_class (n % 10) hm
      rw [List.append_assoc, List.cons_append, List.nil_append,
        ih (n / 10) hdiv, readDigits_cons_digit _ h1, h14]
      simp only [List.length_append, List.length_cons, List.length_nil]
      have hval : (acc * 10 ^ (natDigs (n / 10)).length + n / 10) * 10 + n % 10 =
          acc * 10 ^ ((natDigs (n / 10)).length + (0 + 1)) + n := by
        have hp : (10 : Nat) ^ ((natDigs (n / 10)).length + (0 + 1)) =
            10 ^ (natDigs (n / 10)).length * 10 := by ring
        rw [hp]
        have := Nat.div_add_mod n 10
        ring_nf
        omega
      rw [hval]
      ring_nf

/-- Reading `k` fixed digits of `f` accumulates exactly `f`. -/
theorem readDigits_fixedDigs (k : Nat) :
    ∀ f acc cnt rest, f < 10 ^ k →
      readDigits acc cnt (fixedDigs k f ++ rest) =
        readDigits (acc * 10 ^ k + f) (cnt + k) rest := by
  induction k with
  | zero =>
    intro f acc cnt rest hf
    have : f = 0 := by omega
    subst this
    simp [fixedDigs]
  | succ k ihk =>
    intro f acc cnt rest hf
    have hm : f % 10 < 10 := Nat.mod_lt _ (by omega)
    obtain ⟨h1, -, -, -, -, -, -, -, -, -, -, -, -, h14, -⟩ :=
      digitChar_class (f % 10) hm
    have hdiv : f / 10 < 10 ^ k := by
      apply Nat.div_lt_of_lt_mul
      have hp : (10 : Nat) ^ (k + 1) = 10 ^ k * 10 := by ring
      omega
    simp only [fixedDigs, List.append_assoc, List.cons_append, List.nil_append]
    rw [ihk (f / 10) acc cnt _ hdiv, readDigits_cons_digit _ h1, h14]
    have hval : (acc * 10 ^ k + f / 10) * 10 + f % 10 =
        acc * 10 ^ (k + 1) + f := by
      rw [pow_succ]
      have := Nat.div_add_mod f 10
      ring_nf
      omega
    rw [hval]
    ring_nf

/-- An alphabetic character is alphanumeric. -/
theorem alpha_isAlnum (c : Char) (h : c.isAlpha = true) : c.isAlphanum = true := by
  simp [Char.isAlphanum, h]

/-- Reading digits never grows the stream, and consumes exactly as many
characters as it counts. -/
theorem readDigits_len (cs : List Char) :
    ∀ acc cnt, (readDigits acc cnt cs).2.2.length +
        ((readDigits acc cnt cs).2.1 - cnt) ≤ cs.length ∧
      cnt ≤ (readDigits acc cnt cs).2.1 := by
  induction cs with
  | nil => intro acc cnt; simp [readDigits]
  | cons c cs' ih =>
    intro acc cnt
    by_cases h : c.isDigit = true
    · rw [readDigits_cons_digit c h]
      have := ih (acc * 10 + (c.toNat - 48)) (cnt + 1)
      simp only [List.length_cons]
      omega
    · simp only [readDigits, h, Bool.false_eq_true, if_false]
      simp

/-- On success `readDigits` with a nonzero count consumed a character. -/
theorem readDigits_len_lt (cs : List Char) (acc cnt : Nat)
    (h : (readDigits acc cnt cs).2.1 ≠ cnt) :
    (readDigits acc cnt cs).2.2.length < cs.length := by
  have := readDigits_len cs acc cnt
  omega

/-- Unfolding of `spanAlnum` on an alphanumeric head. -/
theorem spanAlnum_cons_pos (c : Char) (h : c.isAlphanum = true) (cs : List Char) :
    spanAlnum (c :: cs) = (c :: (spanAlnum cs).1, (spanAlnum cs).2) := by
  simp [spanAlnum, h]

/-- Splitting an alphanumeric run never grows the stream. -/
theorem spanAlnum_len (cs : List Char) : (spanAlnum cs).2.length ≤ cs.length := by
  induction cs with
  | nil => simp [spanAlnum]
  | cons c cs' ih =>
    by_cases h : c.isAlphanum = true
    · rw [spanAlnum_cons_pos c h]
      simp only [List.length_cons]
      omega
    · simp only [spanAlnum, h, Bool.false_eq_true, if_false]
      simp

/-- Dropping a comment never grows the stream. -/
theorem dropToEol_len (cs : List Char) : (dropToEol cs).length ≤ cs.length := by
  induction cs with
  | nil => simp [dropToEol]
  | cons c cs' ih =>
    by_cases h : c = '\n'
    · simp [dropToEol, h]
    · simp only [dropToEol, h, if_false]
      simp only [List.length_cons]
      omega

/-- A successful string-literal read consumed at least the closing
quote (stated with an explicit length bound for the induction). -/
theorem readStrChars_lenAux (n : Nat) :
    ∀ cs : List Char, cs.length ≤ n → ∀ s rest,
      readStrChars cs = Except.ok (s, rest) → rest.length < cs.length := by
  induction n with
  | zero =>
    intro cs hcs s rest h
    match cs, hcs with
    | [], _ => exact absurd h (by simp [readStrChars])
  | succ n ih =>
    intro cs hcs s rest h
    match cs with
    | [] => exact absurd h (by simp [readStrChars])
    | c :: cs' =>
      simp only [List.length_cons] at hcs
      rw [readStrChars.eq_def] at h
      simp only at h
      by_cases h1 : c = '"'
      · rw [if_pos h1] at h
        simp only [Except.ok.injEq, Prod.mk.injEq] at h
        obtain ⟨-, hr⟩ := h
        subst hr
        simp
      · rw [if_neg h1] at h
        by_cases h2 : c = '\\'
        · rw [if_pos h2] at h
          match cs', hcs, h with
          | [], hcs, h => exact absurd h (by simp)
          | e :: cs'', hcs, h =>
            simp only at h
            cases h3 : unescChar e with
            | none => rw [h3] at h; exact absurd h (by simp)
            | some d =>
              rw [h3] at h
              simp only at h
              cases h4 : readStrChars cs'' with
              | error d' => rw [h4] at h; exact absurd h (by simp [Except.map])
              | ok p =>
                obtain ⟨s', rest'⟩ := p
                rw [h4] at h
                simp only [Except.map, Except.ok.injEq, Prod.mk.injEq] at h
                obtain ⟨-, hr⟩ := h
                subst hr
                have hlt := ih cs'' (by simp only [List.length_cons] at hcs; omega) s' rest' h4
                simp only [List.length_cons]
                omega
        · rw [if_neg h2] at h
          cases h4 : readStrChars cs' with
          | error d' => rw [h4] at h; exact absurd h (by simp [Except.map])
          | ok p =>
            obtain ⟨s', rest'⟩ := p
            rw [h4] at h
            simp only [Except.map, Except.ok.injEq, Prod.mk.injEq] at h
            obtain ⟨-, hr⟩ := h
            subst hr
            have hlt := ih cs' (by omega) s' rest' h4
            simp only [List.length_cons]
            omega

/-- A successful string-literal read consumed at least the closing
quote. -/
theorem readStrChars_len (cs : List Char) (s rest : List Char)
    (h : readStrChars cs = Except.ok (s, rest)) : rest.length < cs.length :=
  readStrChars_lenAux cs.length cs le_rfl s rest h

/-- Reading exponent digits never grows the stream. -/
theorem expDigits_len (en : Bool) (cs : List Char) (t : NumTail) (rest : List Char)
    (h : expDigits en cs = Except.ok (t, rest)) : rest.length ≤ cs.length := by
  unfold expDigits at h
  rcases h3 : readDigits 0 0 cs with ⟨e, ec, rest'⟩
  rw [h3] at h
  simp only at h
  by_cases h4 : ec = 0
  · rw [if_pos h4] at h; exact absurd h (by simp)
  · rw [if_neg h4] at h
    simp only [Except.ok.injEq, Prod.mk.injEq] at h
    obtain ⟨-, hr⟩ := h
    subst hr
    have := readDigits_len cs 0 0
    rw [h3] at this
    simp only at this
    omega

/-- Reading a numeric tail never grows the stream. -/
theorem numTailRead_len (cs : List Char) (t : NumTail) (rest : List Char)
    (h : numTailRead cs = Except.ok (t, rest)) : rest.length ≤ cs.length := by
  rw [numTailRead.eq_def] at h
  match cs, h with
  | [], h =>
    simp only [Except.ok.injEq, Prod.mk.injEq] at h
    obtain ⟨-, hr⟩ := h
    subst hr
    simp
  | c :: cs', h =>
    simp only at h
    by_cases h1 : c = '.'
    · rw [if_pos h1] at h
      rcases h3 : readDigits 0 0 cs' with ⟨f, fc, rest'⟩
      rw [h3] at h
      simp only at h
      by_cases h4 : fc = 0
      · rw [if_pos h4] at h; exact absurd h (by simp)
      · rw [if_neg h4] at h
        simp only [Except.ok.injEq, Prod.mk.injEq] at h
        obtain ⟨-, hr⟩ := h
        subst hr
        have := readDigits_len cs' 0 0
        rw [h3] at this
        simp only at this
        simp only [List.length_cons]
        omega
    · rw [if_neg h1] at h
      by_cases h2 : c = 'e'
      · rw [if_pos h2] at h
        match cs', h with
        | [], h => exact absurd h (by simp)
        | c2 :: cs'', h =>
          simp only at h
          by_cases h5 : c2 = '-'
          · rw [if_pos h5] at h
            have := expDigits_len true cs'' t rest h
            simp only [List.length_cons]
            omega
          · rw [if_neg h5] at h
            by_cases h6 : c2 = '+'
            · rw [if_pos h6] at h
              have := expDigits_len false cs'' t rest h
              simp only [List.length_cons]
              omega
            · rw [if_neg h6] at h
              have := expDigits_len false (c2 :: cs'') t rest h
              simp only [List.length_cons] at this ⊢
              omega
      · rw [if_neg h2] at h
        simp only [Except.ok.injEq, Prod.mk.injEq] at h
        obtain ⟨-, hr⟩ := h
        subst hr
        simp

/-- A successful number read consumed at least one character. -/
theorem readNumber_len (neg : Bool) (cs : List Char) (t : Token) (rest : List Char)
    (h : readNumber neg cs = Except.ok (t, rest)) : rest.length < cs.length := by
  unfold readNumber at h
  rcases h3 : readDigits 0 0 cs with ⟨i, cnt, rest1⟩
  rw [h3] at h
  simp only at h
  by_cases h4 : cnt = 0
  · rw [if_pos h4] at h; exact absurd h (by simp)
  · rw [if_neg h4] at h
    have hlt : rest1.length < cs.length := by
      have := readDigits_len_lt cs 0 0 (by rw [h3]; simpa using h4)
      rw [h3] at this
      simpa using this
    cases h5 : numTailRead rest1 with
    | error d => rw [h5] at h; exact absurd h (by simp)
    | ok p =>
      obtain ⟨t', rest2⟩ := p
      rw [h5] at h
      simp only at h
      have hle2 : rest2.length ≤ rest1.length := numTailRead_len rest1 t' rest2 h5
      rcases h6 : spanAlnum rest2 with ⟨sfx, rest3⟩
      rw [h6] at h
      simp only at h
      simp only [Except.ok.injEq, Prod.mk.injEq] at h
      obtain ⟨-, hr⟩ := h
      subst hr
      have hle3 : (spanAlnum rest2).2.length ≤ rest2.length := spanAlnum_len rest2
      rw [h6] at hle3
      simp only at hle3
      omega

/-- Unfolding of the lexer loop on a nonempty stream. -/
theorem lexGo_cons (fuel : Nat) (c : Char) (cs : List Char) :
    lexGo (fuel + 1) (c :: cs) =
      match lexStep c cs with
      | Except.error d => Except.error d
      | Except.ok (none, rest) => lexGo fuel rest
      | Except.ok (some t, rest) => (lexGo fuel rest).map (t :: ·) := rfl

/-- One lexer step never grows the stream. -/
theorem lexStep_len (c : Char) (cs : List Char) (o : Option Token) (rest : List Char)
    (h : lexStep c cs = Except.ok (o, rest)) : rest.length ≤ cs.length := by
  unfold lexStep at h
  by_cases h1 : c.isWhitespace
  · rw [if_pos h1] at h
    simp only [Except.ok.injEq, Prod.mk.injEq] at h
    obtain ⟨-, hr⟩ := h
    subst hr
    exact le_rfl
  · rw [if_neg h1] at h
    by_cases h2 : c = '{'
    · rw [if_pos h2] at h
      simp only [Except.ok.injEq, Prod.mk.injEq] at h
      obtain ⟨-, hr⟩ := h
      subst hr
      exact le_rfl
    · rw [if_neg h2] at h
      by_cases h3 : c = '}'
      · rw [if_pos h3] at h
        simp only [Except.ok.injEq, Prod.mk.injEq] at h
        obtain ⟨-, hr⟩ := h
        subst hr
        exact le_rfl
      · rw [if_neg h3] at h
        by_cases h4 : c = '['
        · rw [if_pos h4] at h
          simp only [Except.ok.injEq, Prod.mk.injEq] at h
          obtain ⟨-, hr⟩ := h
          subst hr
          exact le_rfl
        · rw [if_neg h4] at h
          by_cases h5 : c = ']'
          · rw [if_pos h5] at h
            simp only [Except.ok.injEq, Prod.mk.injEq] at h
            obtain ⟨-, hr⟩ := h
            subst hr
            exact le_rfl
          · rw [if_neg h5] at h
            by_cases h6 : c = ':'
            · rw [if_pos h6] at h
              simp only [Except.ok.injEq, Prod.mk.injEq] at h
              obtain ⟨-, hr⟩ := h
              subst hr
              exact le_rfl
            · rw [if_neg h6] at h
              by_cases h7 : c = ','
              · rw [if_pos h7] at h
                simp only [Except.ok.injEq, Prod.mk.injEq] at h
                obtain ⟨-, hr⟩ := h
                subst hr
                exact le_rfl
              · rw [if_neg h7] at h
                by_cases h8 : c = '#'
                · rw [if_pos h8] at h
                  simp only [Except.ok.injEq, Prod.mk.injEq] at h
                  obtain ⟨-, hr⟩ := h
                  subst hr
                  exact dropToEol_len cs
                · rw [if_neg h8] at h
                  by_cases h9 : c = '"'
                  · rw [if_pos h9] at h
                    unfold strTokRead at h
                    cases hs : readStrChars cs with
                    | error d => rw [hs] at h; exact absurd h (by simp)
                    | ok p =>
                      obtain ⟨s, rest'⟩ := p
                      rw [hs] at h
                      simp only [Except.ok.injEq, Prod.mk.injEq] at h
                      obtain ⟨-, hr⟩ := h
                      subst hr
                      exact le_of_lt (readStrChars_len cs s rest' hs)
                  · rw [if_neg h9] at h
                    by_cases h10 : c.isDigit
                    · rw [if_pos h10] at h
                      unfold numTokRead at h
                      cases hn : readNumber false (c :: cs) with
                      | error d => rw [hn] at h; exact absurd h (by simp)
                      | ok p =>
                        obtain ⟨t, rest'⟩ := p
                        rw [hn] at h
                        simp only [Except.ok.injEq, Prod.mk.injEq] at h
                        obtain ⟨-, hr⟩ := h
                        subst hr
                        have := readNumber_len false (c :: cs) t rest' hn
                        simp only [List.length_cons] at this
                        omega
                    · rw [if_neg h10] at h
                      by_cases h11 : c = '-' ∨ c = '+'
                      · rw [if_pos h11] at h
                        unfold signRead at h
                        match cs, h with
                        | [], h => exact absurd h (by simp)
                        | d :: ds, h =>
                          simp only at h
                          by_cases h12 : d.isDigit
                          · rw [if_pos h12] at h
                            unfold numTokRead at h
                            cases hn : readNumber (decide (c = '-')) (d :: ds) with
                            | error d' => rw [hn] at h; exact absurd h (by simp)
                            | ok p =>
                              obtain ⟨t, rest'⟩ := p
                              rw [hn] at h
                              simp only [Except.ok.injEq, Prod.mk.injEq] at h
                              obtain ⟨-, hr⟩ := h
                              subst hr
                              have := readNumber_len (decide (c = '-')) (d :: ds) t rest' hn
                              simp only [List.length_cons] at this ⊢
                              omega
                          · rw [if_neg h12] at h
                            exact absurd h (by simp)
                      · rw [if_neg h11] at h
                        by_cases h13 : c.isAlpha
                        · rw [if_pos h13] at h
                          unfold wordRead at h
                          simp only [Except.ok.injEq, Prod.mk.injEq] at h
                          obtain ⟨-, hr⟩ := h
                          subst hr
                          rw [spanAlnum_cons_pos c (alpha_isAlnum c h13) cs]
                          exact spanAlnum_len cs
                        · rw [if_neg h13] at h
                          exact absurd h (by simp)

/-- The lexer result does not depend on the fuel once the fuel dominates
the input length. -/
theorem lexGo_stable (n : Nat) :
    ∀ cs : List Char, cs.length ≤ n → ∀ f g, cs.length < f → cs.length < g →
      lexGo f cs = lexGo g cs := by
  induction n with
  | zero =>
    intro cs hcs f g hf hg
    match cs, hcs with
    | [], _ =>
      match f, g, hf, hg with
      | f' + 1, g' + 1, _, _ => rfl
  | succ n ih =>
    intro cs hcs f g hf hg
    match cs with
    | [] =>
      match f, g, hf, hg with
      | f' + 1, g' + 1, _, _ => rfl
    | c :: cs' =>
      match f, g, hf, hg with
      | f' + 1, g' + 1, hf, hg =>
        simp only [List.length_cons] at hcs hf hg
        rw [lexGo_cons, lexGo_cons]
        cases hs : lexStep c cs' with
        | error d => rfl
        | ok p =>
          obtain ⟨o, rest⟩ := p
          have hlen := lexStep_len c cs' o rest hs
          cases o with
          | none =>
            simp only
            exact ih rest (by omega) f' g' (by omega) (by omega)
          | some t =>
            simp only
            rw [ih rest (by omega) f' g' (by omega) (by omega)]

/-- Any adequate fuel computes `lexL`. -/
theorem lexGo_eq_lexL (f : Nat) (cs : List Char) (h : cs.length < f) :
    lexGo f cs = lexL cs :=
  lexGo_stable cs.length cs le_rfl f (cs.length + 1) h (by omega)

/-- Unfolding of `lexL` on a nonempty stream. -/
theorem lexL_cons (c : Char) (cs : List Char) :
    lexL (c :: cs) =
      match lexStep c cs with
      | Except.error d => Except.error d
      | Except.ok (none, rest) => lexGo (cs.length + 1) rest
      | Except.ok (some t, rest) => (lexGo (cs.length + 1) rest).map (t :: ·) := rfl

/-- A lexer step that produced a token prepends it to the remaining
lex. -/
theorem lexL_step (c : Char) (cs : List Char) (t : Token) (rest : List Char)
    (h : lexStep c cs = Except.ok (some t, rest)) :
    lexL (c :: cs) = (lexL rest).map (t :: ·) := by
  rw [lexL_cons, h]
  simp only
  rw [lexGo_eq_lexL _ rest (by have := lexStep_len c cs (some t) rest h; omega)]

/-- A lexer step that skipped whitespace or a comment leaves the lex of
the rest. -/
theorem lexL_skip (c : Char) (cs : List Char) (rest : List Char)
    (h : lexStep c cs = Except.ok (none, rest)) :
    lexL (c :: cs) = lexL rest := by
  rw [lexL_cons, h]
  simp only
  rw [lexGo_eq_lexL _ rest (by have := lexStep_len c cs none rest h; omega)]

/-- A lexer step that failed fails the lex. -/
theorem lexL_fail (c : Char) (cs : List Char) (d : Diag)
    (h : lexStep c cs = Except.error d) :
    lexL (c :: cs) = Except.error d := by
  rw [lexL_cons, h]

/-- Whitespace at the head is skipped. -/
theorem lexL_ws (c : Char) (h : c.isWhitespace = true) (cs : List Char) :
    lexL (c :: cs) = lexL cs :=
  lexL_skip c cs cs (by unfold lexStep; rw [if_pos h])

/-- A whitespace run at the head is skipped. -/
theorem lexL_wsRun (ws : List Char) (h : ∀ c ∈ ws, c.isWhitespace = true)
    (cs : List Char) : lexL (ws ++ cs) = lexL cs := by
  induction ws with
  | nil => rfl
  | cons w ws' ih =>
    rw [List.cons_append, lexL_ws w (h w (by simp)) _,
      ih (fun c hc => h c (by simp [hc]))]

/-- Indentation spaces are skipped. -/
theorem lexL_spaces (n : Nat) (cs : List Char) : lexL (spaces n ++ cs) = lexL cs :=
  lexL_wsRun _ (fun c hc => by
    rw [List.eq_of_mem_replicate hc]; decide) cs

/-- A newline is skipped. -/
theorem lexL_nl (cs : List Char) : lexL ('\n' :: cs) = lexL cs :=
  lexL_ws '\n' (by decide) cs

/-- Opening brace token. -/
theorem lexL_lbrace (cs : List Char) :
    lexL ('{' :: cs) = (lexL cs).map (Token.lbrace :: ·) :=
  lexL_step '{' cs Token.lbrace cs rfl

/-- Closing brace token. -/
theorem lexL_rbrace (cs : List Char) :
    lexL ('}' :: cs) = (lexL cs).map (Token.rbrace :: ·) :=
  lexL_step '}' cs Token.rbrace cs rfl

/-- Opening bracket token. -/
theorem lexL_lbrack (cs : List Char) :
    lexL ('[' :: cs) = (lexL cs).map (Token.lbrack :: ·) :=
  lexL_step '[' cs Token.lbrack cs rfl

/-- Closing bracket token. -/
theorem lexL_rbrack (cs : List Char) :
    lexL (']' :: cs) = (lexL cs).map (Token.rbrack :: ·) :=
  lexL_step ']' cs Token.rbrack cs rfl

/-- Colon token. -/
theorem lexL_colon (cs : List Char) :
    lexL (':' :: cs) = (lexL cs).map (Token.colon :: ·) :=
  lexL_step ':' cs Token.colon cs rfl

/-- Comma token. -/
theorem lexL_comma (cs : List Char) :
    lexL (',' :: cs) = (lexL cs).map (Token.comma :: ·) :=
  lexL_step ',' cs Token.comma cs rfl

/-- Reading back escaped string content stops at the closing quote. -/
theorem readStrChars_esc (l : List Char) :
    ∀ cs, readStrChars (escChars l ++ '"' :: cs) = Except.ok (l, cs) := by
  induction l with
  | nil =>
    intro cs
    rw [show escChars [] = ([] : List Char) from rfl, List.nil_append,
      readStrChars.eq_def]
    simp only
    rw [if_pos trivial]
  | cons c l' ih =>
    intro cs
    show readStrChars ((escChar c ++ escChars l') ++ '"' :: cs) = _
    rw [List.append_assoc]
    by_cases h1 : c = '"'
    · subst h1
      rw [show escChar '"' = ['\\', '"'] from rfl]
      rw [show (['\\', '"'] : List Char) ++ (escChars l' ++ '"' :: cs) =
        '\\' :: '"' :: (escChars l' ++ '"' :: cs) from rfl]
      rw [readStrChars.eq_def]
      simp only
      rw [if_neg (by decide), if_pos trivial]
      simp only [show unescChar '"' = some '"' from rfl]
      rw [ih cs]
      rfl
    · by_cases h2 : c = '\\'
      · subst h2
        rw [show escChar '\\' = ['\\', '\\'] from rfl]
        rw [show (['\\', '\\'] : List Char) ++ (escChars l' ++ '"' :: cs) =
          '\\' :: '\\' :: (escChars l' ++ '"' :: cs) from rfl]
        rw [readStrChars.eq_def]
        simp only
        rw [if_neg (by decide), if_pos trivial]
        simp only [show unescChar '\\' = some '\\' from rfl]
        rw [ih cs]
        rfl
      · by_cases h3 : c = '\n'
        · subst h3
          rw [show escChar '\n' = ['\\', 'n'] from rfl]
          rw [show (['\\', 'n'] : List Char) ++ (escChars l' ++ '"' :: cs) =
            '\\' :: 'n' :: (escChars l' ++ '"' :: cs) from rfl]
          rw [readStrChars.eq_def]
          simp only
          rw [if_neg (by decide), if_pos trivial]
          simp only [show unescChar 'n' = some '\n' from rfl]
          rw [ih cs]
          rfl
        · by_cases h4 : c = '\t'
          · subst h4
            rw [show escChar '\t' = ['\\', 't'] from rfl]
            rw [show (['\\', 't'] : List Char) ++ (escChars l' ++ '"' :: cs) =
              '\\' :: 't' :: (escChars l' ++ '"' :: cs) from rfl]
            rw [readStrChars.eq_def]
            simp only
            rw [if_neg (by decide), if_pos trivial]
            simp only [show unescChar 't' = some '\t' from rfl]
            rw [ih cs]
            rfl
          · by_cases h5 : c = '\r'
            · subst h5
              rw [show escChar '\r' = ['\\', 'r'] from rfl]
              rw [show (['\\', 'r'] : List Char) ++ (escChars l' ++ '"' :: cs) =
                '\\' :: 'r' :: (escChars l' ++ '"' :: cs) from rfl]
              rw [readStrChars.eq_def]
              simp only
              rw [if_neg (by decide), if_pos trivial]
              simp only [show unescChar 'r' = some '\r' from rfl]
              rw [ih cs]
              rfl
            · rw [show escChar c = [c] from by
                unfold escChar
                rw [if_neg h1, if_neg h2, if_neg h3, if_neg h4, if_neg h5]]
              rw [show ([c] : List Char) ++ (escChars l' ++ '"' :: cs) =
                c :: (escChars l' ++ '"' :: cs) from rfl]
              rw [readStrChars.eq_def]
              simp only
              rw [if_neg h1, if_neg h2]
              rw [ih cs]
              rfl

/-- Lexing a string literal yields its string token. -/
theorem lexL_strTok (s : String) (cs : List Char) :
    lexL (strLitChars s ++ cs) = (lexL cs).map (Token.str s :: ·) := by
  show lexL ('"' :: escChars s.data ++ ['"'] ++ cs) = _
  rw [List.append_assoc, List.cons_append]
  apply lexL_step
  rw [show lexStep '"' (escChars s.data ++ (['"'] ++ cs)) =
    strTokRead (escChars s.data ++ (['"'] ++ cs)) from rfl]
  unfold strTokRead
  rw [show (['"'] ++ cs : List Char) = '"' :: cs from rfl, readStrChars_esc s.data cs]

/-- The suffix texts of the serializer are alphanumeric and cannot merge with
the preceding number. -/
theorem sfxOK_facts (sfx : String) (h : sfxOK sfx = true) :
    sfx.data.all Char.isAlphanum = true ∧ sfxHeadOK sfx.data = true := by
  have h' : sfx ∈ sfxOKList := by simpa [sfxOK] using h
  simp only [sfxOKList, List.mem_cons, List.not_mem_nil, or_false] at h'
  rcases h' with rfl | rfl | rfl | rfl | rfl | rfl | rfl | rfl | rfl | rfl | rfl <;>
    exact (by decide)

/-- Splitting an alphanumeric run from a non-alphanumeric
continuation. -/
theorem spanAlnum_all_append (w : List Char) (cs : List Char)
    (hw : ∀ c ∈ w, c.isAlphanum = true) (hcs : headNotAlnum cs = true) :
    spanAlnum (w ++ cs) = (w, cs) := by
  induction w with
  | nil =>
    rw [List.nil_append]
    cases cs with
    | nil => rfl
    | cons c cs' =>
      simp only [headNotAlnum, Bool.not_eq_true'] at hcs
      simp [spanAlnum, hcs]
  | cons c w' ih =>
    rw [List.cons_append, spanAlnum_cons_pos c (hw c (by simp)),
      ih (fun x hx => hw x (by simp [hx]))]

/-- A stream that may follow a token does not start alphanumeric. -/
theorem headSepOK_not_alnum (cs : List Char) (h : headSepOK cs = true) :
    headNotAlnum cs = true := by
  cases cs with
  | nil => rfl
  | cons c cs' =>
    simp only [headSepOK, Bool.not_eq_true', Bool.or_eq_false_iff] at h
    simp [headNotAlnum, h.1]

/-- Unfolding of `numTailRead` on the empty stream. -/
theorem numTailRead_nil : numTailRead [] = Except.ok (NumTail.int, []) := rfl

/-- Reading a numeric tail stops on a head that starts neither a fraction nor an
exponent. -/
theorem numTailRead_int_cons (c : Char) (cs : List Char) (h1 : c ≠ '.')
    (h2 : c ≠ 'e') : numTailRead (c :: cs) = Except.ok (NumTail.int, c :: cs) := by
  rw [numTailRead.eq_def]
  simp only
  rw [if_neg h1, if_neg h2]

/-- Reading a numeric tail stops on a stream that may follow a token. -/
theorem numTailRead_int_sep (cs : List Char) (h : headSepOK cs = true) :
    numTailRead cs = Except.ok (NumTail.int, cs) := by
  cases cs with
  | nil => rfl
  | cons c cs' =>
    simp only [headSepOK, Bool.not_eq_true', Bool.or_eq_false_iff] at h
    refine numTailRead_int_cons c cs' ?_ ?_
    · simpa using h.2
    · intro hc
      subst hc
      exact absurd h.1 (by decide)

/-- Reading back a serialized numeric literal reconstructs its token. -/
theorem readNumber_spec (neg : Bool) (i : Nat) (t : NumTail) (sfx : String)
    (cs : List Char) (hs : sfxOK sfx = true) (ht : tailOK t = true)
    (hsep : headSepOK cs = true) :
    readNumber neg (natDigs i ++ (tailChars t ++ (sfx.data ++ cs))) =
      Except.ok (Token.num neg i t sfx, cs) := by
  obtain ⟨hall, hhead⟩ := sfxOK_facts sfx hs
  have hnodig : headDigit (sfx.data ++ cs) = false := by
    cases hd : sfx.data with
    | nil => rw [List.nil_append]; exact headSepOK_not_digit cs hsep
    | cons c w =>
      rw [hd] at hhead
      simp only [sfxHeadOK, Bool.and_eq_true, Bool.not_eq_true'] at hhead
      simp [List.cons_append, headDigit, hhead.2]
  have htail : numTailRead (sfx.data ++ cs) =
      Except.ok (NumTail.int, sfx.data ++ cs) := by
    cases hd : sfx.data with
    | nil => rw [List.nil_append]; exact numTailRead_int_sep cs hsep
    | cons c w =>
      rw [hd] at hhead
      simp only [sfxHeadOK, Bool.and_eq_true, Bool.not_eq_true',
        decide_eq_false_iff_not] at hhead
      obtain ⟨⟨⟨-, hne⟩, hnd⟩, -⟩ := hhead
      rw [List.cons_append]
      exact numTailRead_int_cons c (w ++ cs) hnd hne
  have hspan : spanAlnum (sfx.data ++ cs) = (sfx.data, cs) := by
    apply spanAlnum_all_append
    · intro c hc
      exact List.all_eq_true.mp hall c hc
    · exact headSepOK_not_alnum cs hsep
  obtain ⟨d0, ds0, hshape0, hd0⟩ := natDigs_shape i
  have hLpos : (natDigs i).length ≠ 0 := by rw [hshape0]; simp
  unfold readNumber
  cases t with
  | int =>
    rw [show tailChars NumTail.int = [] from rfl, List.nil_append]
    rw [readDigits_natDigs i 0 0 (sfx.data ++ cs),
      readDigits_stop _ _ _ hnodig]
    simp only
    rw [if_neg (by omega)]
    rw [htail]
    simp only
    rw [hspan]
    simp only [Nat.zero_mul, Nat.zero_add]
  | frac f fc =>
    simp only [tailOK, decide_eq_true_eq] at ht
    rw [show tailChars (NumTail.frac f fc) = '.' :: fixedDigs fc f from rfl]
    rw [show ('.' :: fixedDigs fc f) ++ (sfx.data ++ cs) =
      '.' :: (fixedDigs fc f ++ (sfx.data ++ cs)) from rfl]
    rw [readDigits_natDigs i 0 0 _, readDigits_stop _ _ _ (by simp [headDigit])]
    simp only
    rw [if_neg (by omega)]
    rw [numTailRead.eq_def]
    simp only
    rw [if_pos trivial, readDigits_fixedDigs fc f 0 0 _ ht.2,
      readDigits_stop _ _ _ hnodig]
    simp only
    rw [if_neg (by omega)]
    simp only
    rw [hspan]
    simp only [Nat.zero_mul, Nat.zero_add]
  | exp en e => exact absurd ht (by simp [tailOK])

/-- Lexing a serialized numeric literal yields its number token. -/
theorem lexL_numTok (neg : Bool) (i : Nat) (t : NumTail) (sfx : String)
    (cs : List Char) (hs : sfxOK sfx = true) (ht : tailOK t = true)
    (hsep : headSepOK cs = true) :
    lexL (numChars neg i t sfx ++ cs) =
      (lexL cs).map (Token.num neg i t sfx :: ·) := by
  obtain ⟨d, ds, hshape, hd10⟩ := natDigs_shape i
  obtain ⟨hdig, hws, hb1, hb2, hb3, hb4, hb5, hb6, hb7, hb8, -, -, -, -, -,
    hbm, hbp⟩ := digitChar_class d hd10
  cases neg with
  | false =>
    rw [show numChars false i t sfx ++ cs =
      natDigs i ++ (tailChars t ++ (sfx.data ++ cs)) from by
        simp [numChars, List.append_assoc]]
    rw [hshape, List.cons_append]
    apply lexL_step
    have hstep : lexStep (digitChar d) (ds ++ (tailChars t ++ (sfx.data ++ cs))) =
        numTokRead false (digitChar d :: (ds ++ (tailChars t ++ (sfx.data ++ cs)))) := by
      unfold lexStep
      rw [if_neg (by simp [hws]), if_neg hb1, if_neg hb2, if_neg hb3, if_neg hb4,
        if_neg hb5, if_neg hb6, if_neg hb7, if_neg hb8, if_pos hdig]
    rw [hstep]
    unfold numTokRead
    rw [show digitChar d :: (ds ++ (tailChars t ++ (sfx.data ++ cs))) =
      natDigs i ++ (tailChars t ++ (sfx.data ++ cs)) from by rw [hshape]; rfl]
    rw [readNumber_spec false i t sfx cs hs ht hsep]
  | true =>
    rw [show numChars true i t sfx ++ cs =
      '-' :: (natDigs i ++ (tailChars t ++ (sfx.data ++ cs))) from by
        simp [numChars, List.append_assoc]]
    apply lexL_step
    rw [show lexStep '-' (natDigs i ++ (tailChars t ++ (sfx.data ++ cs))) =
      signRead true (natDigs i ++ (tailChars t ++ (sfx.data ++ cs))) from rfl]
    unfold signRead
    rw [hshape, List.cons_append]
    simp only
    rw [if_pos hdig]
    unfold numTokRead
    rw [show digitChar d :: (ds ++ (tailChars t ++ (sfx.data ++ cs))) =
      natDigs i ++ (tailChars t ++ (sfx.data ++ cs)) from by rw [hshape]; rfl]
    rw [readNumber_spec true i t sfx cs hs ht hsep]

/-- Lexing the text `true` yields its boolean token. -/
theorem lexL_true (cs : List Char) (hsep : headSepOK cs = true) :
    lexL ("true".data ++ cs) = (lexL cs).map (Token.tbool true :: ·) := by
  rw [show "true".data ++ cs = 't' :: ('r' :: 'u' :: 'e' :: cs) from rfl]
  apply lexL_step
  rw [show lexStep 't' ('r' :: 'u' :: 'e' :: cs) =
    wordRead 't' ('r' :: 'u' :: 'e' :: cs) from rfl]
  unfold wordRead
  rw [show ('t' :: 'r' :: 'u' :: 'e' :: cs) = "true".data ++ cs from rfl]
  rw [spanAlnum_all_append "true".data cs (by decide)
    (headSepOK_not_alnum cs hsep)]
  rfl

/-- Lexing the text `false` yields its boolean token. -/
theorem lexL_false (cs : List Char) (hsep : headSepOK cs = true) :
    lexL ("false".data ++ cs) = (lexL cs).map (Token.tbool false :: ·) := by
  rw [show "false".data ++ cs = 'f' :: ('a' :: 'l' :: 's' :: 'e' :: cs) from rfl]
  apply lexL_step
  rw [show lexStep 'f' ('a' :: 'l' :: 's' :: 'e' :: cs) =
    wordRead 'f' ('a' :: 'l' :: 's' :: 'e' :: cs) from rfl]
  unfold wordRead
  rw [show ('f' :: 'a' :: 'l' :: 's' :: 'e' :: cs) = "false".data ++ cs from rfl]
  rw [spanAlnum_all_append "false".data cs (by decide)
    (headSepOK_not_alnum cs hsep)]
  rfl

/-- Lexing the text `null` yields the null token. -/
theorem lexL_null (cs : List Char) (hsep : headSepOK cs = true) :
    lexL ("null".data ++ cs) = (lexL cs).map (Token.tnull :: ·) := by
  rw [show "null".data ++ cs = 'n' :: ('u' :: 'l' :: 'l' :: cs) from rfl]
  apply lexL_step
  rw [show lexStep 'n' ('u' :: 'l' :: 'l' :: cs) =
    wordRead 'n' ('u' :: 'l' :: 'l' :: cs) from rfl]
  unfold wordRead
  rw [show ('n' :: 'u' :: 'l' :: 'l' :: cs) = "null".data ++ cs from rfl]
  rw [spanAlnum_all_append "null".data cs (by decide)
    (headSepOK_not_alnum cs hsep)]
  rfl

/-- Token characters distribute over concatenation. -/
theorem toksChars_append (a b : List Token) :
    toksChars (a ++ b) = toksChars a ++ toksChars b := by
  induction a with
  | nil => rfl
  | cons t a' ih => simp [toksChars, ih]

/-- Mapping extensionally equal functions over an `Except` result. -/
theorem exmap_congr {ε α β : Type} (e : Except ε α) (f g : α → β)
    (h : ∀ x, f x = g x) : e.map f = e.map g := by
  cases e with
  | error d => rfl
  | ok a => simp only [Except.map, h a]

mutual
/-- Lexing the compact serialization of a valid value, followed by any
stream a token may abut, yields its token stream followed by the lex of
the rest. -/
theorem lexC_V (v : Value) (hv : validV v = true) (cs : List Char)
    (hsep : headSepOK cs = true) :
    lexL (toksChars (toksV v) ++ cs) = (lexL cs).map (toksV v ++ ·) := by
  cases v with
  | i8 x =>
    rw [show toksChars (toksV (Value.i8 x)) ++ cs =
      numChars (decide (x < 0)) x.natAbs NumTail.int "i8" ++ cs from by
        simp [toksV, toksChars, tokChars]]
    rw [lexL_numTok _ _ _ _ cs (by decide) (by decide) hsep]
    rfl
  | i16 x =>
    rw [show toksChars (toksV (Value.i16 x)) ++ cs =
      numChars (decide (x < 0)) x.natAbs NumTail.int "i16" ++ cs from by
        simp [toksV, toksChars, tokChars]]
    rw [lexL_numTok _ _ _ _ cs (by decide) (by decide) hsep]
    rfl
  | i32 x =>
    rw [show toksChars (toksV (Value.i32 x)) ++ cs =
      numChars (decide (x < 0)) x.natAbs NumTail.int "i32" ++ cs from by
        simp [toksV, toksChars, tokChars]]
    rw [lexL_numTok _ _ _ _ cs (by decide) (by decide) hsep]
    rfl
  | i64 x =>
    rw [show toksChars (toksV (Value.i64 x)) ++ cs =
      numChars (decide (x < 0)) x.natAbs NumTail.int "" ++ cs from by
        simp [toksV, toksChars, tokChars]]
    rw [lexL_numTok _ _ _ _ cs (by decide) (by decide) hsep]
    rfl
  | u8 x =>
    rw [show toksChars (toksV (Value.u8 x)) ++ cs =
      numChars false x NumTail.int "u8" ++ cs from by
        simp [toksV, toksChars, tokChars]]
    rw [lexL_numTok _ _ _ _ cs (by decide) (by decide) hsep]
    rfl
  | u16 x =>
    rw [show toksChars (toksV (Value.u16 x)) ++ cs =
      numChars false x NumTail.int "u16" ++ cs from by
        simp [toksV, toksChars, tokChars]]
    rw [lexL_numTok _ _ _ _ cs (by decide) (by decide) hsep]
    rfl
  | u32 x =>
    rw [show toksChars (toksV (Value.u32 x)) ++ cs =
      numChars false x NumTail.int "u32" ++ cs from by
        simp [toksV, toksChars, tokChars]]
    rw [lexL_numTok _ _ _ _ cs (by decide) (by decide) hsep]
    rfl
  | u64 x =>
    rw [show toksChars (toksV (Value.u64 x)) ++ cs =
      numChars false x NumTail.int "u64" ++ cs from by
        simp [toksV, toksChars, tokChars]]
    rw [lexL_numTok _ _ _ _ cs (by decide) (by decide) hsep]
    rfl
  | f32 m s =>
    simp only [validV, decide_eq_true_eq] at hv
    rw [show toksChars (toksV (Value.f32 m s)) ++ cs =
      numChars (decide (m < 0)) (m.natAbs / 10 ^ s)
        (NumTail.frac (m.natAbs % 10 ^ s) s) "f32" ++ cs from by
        simp [toksV, toksChars, tokChars]]
    rw [lexL_numTok _ _ _ _ cs (by decide)
      (by simp [tailOK]; exact ⟨hv, Nat.mod_lt _ (Nat.pos_pow_of_pos s (by omega))⟩) hsep]
    rfl
  | f64 m s =>
    simp only [validV, decide_eq_true_eq] at hv
    rw [show toksChars (toksV (Value.f64 m s)) ++ cs =
      numChars (decide (m < 0)) (m.natAbs / 10 ^ s)
        (NumTail.frac (m.natAbs % 10 ^ s) s) "" ++ cs from by
        simp [toksV, toksChars, tokChars]]
    rw [lexL_numTok _ _ _ _ cs (by decide)
      (by simp [tailOK]; exact ⟨hv, Nat.mod_lt _ (Nat.pos_pow_of_pos s (by omega))⟩) hsep]
    rfl
  | str s b =>
    rw [show toksChars (toksV (Value.str s b)) ++ cs = strLitChars s ++ cs from by
      simp [toksV, toksChars, tokChars]]
    rw [lexL_strTok s cs]
    rfl
  | bool b =>
    cases b with
    | true =>
      rw [show toksChars (toksV (Value.bool true)) ++ cs = "true".data ++ cs from by
        simp [toksV, toksChars, tokChars]]
      rw [lexL_true cs hsep]
      rfl
    | false =>
      rw [show toksChars (toksV (Value.bool false)) ++ cs = "false".data ++ cs from by
        simp [toksV, toksChars, tokChars]]
      rw [lexL_false cs hsep]
      rfl
  | null =>
    rw [show toksChars (toksV Value.null) ++ cs = "null".data ++ cs from by
      simp [toksV, toksChars, tokChars]]
    rw [lexL_null cs hsep]
    rfl
  | object fs =>
    simp only [validV, Bool.and_eq_true] at hv
    rw [show toksChars (toksV (Value.object fs)) ++ cs =
      '{' :: (toksChars (toksF fs) ++ ('}' :: cs)) from by
        simp [toksV, toksChars, toksChars_append, tokChars]]
    rw [lexL_lbrace, lexC_F fs hv.1 ('}' :: cs) rfl, lexL_rbrace,
      exmap_map, exmap_map]
    apply exmap_congr
    intro x
    simp [toksV]
  | array es =>
    simp only [validV] at hv
    rw [show toksChars (toksV (Value.array es)) ++ cs =
      '[' :: (toksChars (toksE es) ++ (']' :: cs)) from by
        simp [toksV, toksChars, toksChars_append, tokChars]]
    rw [lexL_lbrack, lexC_E es hv (']' :: cs) rfl, lexL_rbrack,
      exmap_map, exmap_map]
    apply exmap_congr
    intro x
    simp [toksV]

/-- Lexing the compact serialization of valid object fields. -/
theorem lexC_F (fs : Fields) (hv : validF fs = true) (cs : List Char)
    (hsep : headSepOK cs = true) :
    lexL (toksChars (toksF fs) ++ cs) = (lexL cs).map (toksF fs ++ ·) := by
  cases fs with
  | nil =>
    rw [show toksChars (toksF Fields.nil) ++ cs = cs from by simp [toksF, toksChars]]
    apply Eq.symm
    rw [show (fun x => toksF Fields.nil ++ x) = fun x : List Token => x from by
      funext x; simp [toksF]]
    cases lexL cs with
    | error d => rfl
    | ok ts => rfl
  | cons k v rest =>
    simp only [validF, Bool.and_eq_true] at hv
    cases rest with
    | nil =>
      rw [show toksChars (toksF (Fields.cons k v Fields.nil)) ++ cs =
        strLitChars k ++ (':' :: (toksChars (toksV v) ++ cs)) from by
          simp [toksF, toksChars, toksChars_append, tokChars]]
      rw [lexL_strTok, lexL_colon, lexC_V v hv.1 cs hsep, exmap_map, exmap_map]
      apply exmap_congr
      intro x
      simp [toksF]
    | cons k2 v2 rest2 =>
      rw [show toksChars (toksF (Fields.cons k v (Fields.cons k2 v2 rest2))) ++ cs =
        strLitChars k ++ (':' :: (toksChars (toksV v) ++
          (',' :: (toksChars (toksF (Fields.cons k2 v2 rest2)) ++ cs)))) from by
          simp [toksF, toksChars, toksChars_append, tokChars]]
      rw [lexL_strTok, lexL_colon,
        lexC_V v hv.1 (',' :: (toksChars (toksF (Fields.cons k2 v2 rest2)) ++ cs)) rfl,
        lexL_comma,
        lexC_F (Fields.cons k2 v2 rest2) hv.2 cs hsep,
        exmap_map, exmap_map, exmap_map, exmap_map]
      apply exmap_congr
      intro x
      simp [toksF]

/-- Lexing the compact serialization of valid array elements. -/
theorem lexC_E (es : Elems) (hv : validE es = true) (cs : List Char)
    (hsep : headSepOK cs = true) :
    lexL (toksChars (toksE es) ++ cs) = (lexL cs).map (toksE es ++ ·) := by
  cases es with
  | nil =>
    rw [show toksChars (toksE Elems.nil) ++ cs = cs from by simp [toksE, toksChars]]
    apply Eq.symm
    rw [show (fun x => toksE Elems.nil ++ x) = fun x : List Token => x from by
      funext x; simp [toksE]]
    cases lexL cs with
    | error d => rfl
    | ok ts => rfl
  | cons v rest =>
    simp only [validE, Bool.and_eq_true] at hv
    cases rest with
    | nil =>
      rw [show toksChars (toksE (Elems.cons v Elems.nil)) ++ cs =
        toksChars (toksV v) ++ cs from by
          simp [toksE, toksChars, toksChars_append]]
      rw [lexC_V v hv.1 cs hsep]
      apply exmap_congr
      intro x
      simp [toksE]
    | cons v2 rest2 =>
      rw [show toksChars (toksE (Elems.cons v (Elems.cons v2 rest2))) ++ cs =
        toksChars (toksV v) ++
          (',' :: (toksChars (toksE (Elems.cons v2 rest2)) ++ cs)) from by
          simp [toksE, toksChars, toksChars_append, tokChars]]
      rw [lexC_V v hv.1 (',' :: (toksChars (toksE (Elems.cons v2 rest2)) ++ cs)) rfl,
        lexL_comma,
        lexC_E (Elems.cons v2 rest2) hv.2 cs hsep,
        exmap_map, exmap_map]
      apply exmap_congr
      intro x
      simp [toksE]
end

mutual
/-- Lexing the pretty serialization of a valid value yields the same
token stream as compact mode. -/
theorem lexP_V (ind lvl : Nat) (v : Value) (hv : validV v = true)
    (cs : List Char) (hsep : headSepOK cs = true) :
    lexL (serPV ind lvl v ++ cs) = (lexL cs).map (toksV v ++ ·) := by
  cases v with
  | i8 x => exact serPV_atom_case ind lvl (Value.i8 x) rfl hv cs hsep
  | i16 x => exact serPV_atom_case ind lvl (Value.i16 x) rfl hv cs hsep
  | i32 x => exact serPV_atom_case ind lvl (Value.i32 x) rfl hv cs hsep
  | i64 x => exact serPV_atom_case ind lvl (Value.i64 x) rfl hv cs hsep
  | u8 x => exact serPV_atom_case ind lvl (Value.u8 x) rfl hv cs hsep
  | u16 x => exact serPV_atom_case ind lvl (Value.u16 x) rfl hv cs hsep
  | u32 x => exact serPV_atom_case ind lvl (Value.u32 x) rfl hv cs hsep
  | u64 x => exact serPV_atom_case ind lvl (Value.u64 x) rfl hv cs hsep
  | f32 m s => exact serPV_atom_case ind lvl (Value.f32 m s) rfl hv cs hsep
  | f64 m s => exact serPV_atom_case ind lvl (Value.f64 m s) rfl hv cs hsep
  | str s b => exact serPV_atom_case ind lvl (Value.str s b) rfl hv cs hsep
  | bool b => exact serPV_atom_case ind lvl (Value.bool b) (by cases b <;> rfl) hv cs hsep
  | null => exact serPV_atom_case ind lvl Value.null rfl hv cs hsep
  | object fs =>
    cases fs with
    | nil => exact serPV_atom_case ind lvl (Value.object Fields.nil) rfl hv cs hsep
    | cons k v r =>
      simp only [validV, Bool.and_eq_true] at hv
      rw [show serPV ind lvl (Value.object (Fields.cons k v r)) ++ cs =
        '{' :: ('\n' :: (serPF ind (lvl + 1) (Fields.cons k v r) ++
          ('\n' :: (spaces (ind * lvl) ++ ('}' :: cs))))) from by
          simp [serPV, List.append_assoc]]
      rw [lexL_lbrace, lexL_nl,
        lexP_F ind (lvl + 1) (Fields.cons k v r) hv.1
          ('\n' :: (spaces (ind * lvl) ++ ('}' :: cs))) rfl,
        lexL_nl, lexL_spaces, lexL_rbrace, exmap_map, exmap_map]
      apply exmap_congr
      intro x
      simp [toksV]
  | array es =>
    cases es with
    | nil => exact serPV_atom_case ind lvl (Value.array Elems.nil) rfl hv cs hsep
    | cons v r =>
      simp only [validV] at hv
      rw [show serPV ind lvl (Value.array (Elems.cons v r)) ++ cs =
        '[' :: ('\n' :: (serPE ind (lvl + 1) (Elems.cons v r) ++
          ('\n' :: (spaces (ind * lvl) ++ (']' :: cs))))) from by
          simp [serPV, List.append_assoc]]
      rw [lexL_lbrack, lexL_nl,
        lexP_E ind (lvl + 1) (Elems.cons v r) hv
          ('\n' :: (spaces (ind * lvl) ++ (']' :: cs))) rfl,
        lexL_nl, lexL_spaces, lexL_rbrack, exmap_map, exmap_map]
      apply exmap_congr
      intro x
      simp [toksV]

/-- An atom (or empty composite) pretty-prints exactly its compact
characters. -/
theorem serPV_atom_case (ind lvl : Nat) (v : Value)
    (hatom : serPV ind lvl v = toksChars (toksV v)) (hv : validV v = true)
    (cs : List Char) (hsep : headSepOK cs = true) :
    lexL (serPV ind lvl v ++ cs) = (lexL cs).map (toksV v ++ ·) := by
  rw [hatom]
  exact lexC_V v hv cs hsep

/-- Lexing the pretty serialization of valid object fields. -/
theorem lexP_F (ind lvl : Nat) (fs : Fields) (hv : validF fs = true)
    (cs : List Char) (hsep : headSepOK cs = true) :
    lexL (serPF ind lvl fs ++ cs) = (lexL cs).map (toksF fs ++ ·) := by
  cases fs with
  | nil =>
    rw [show serPF ind lvl Fields.nil ++ cs = cs from by simp [serPF]]
    apply Eq.symm
    rw [show (fun x => toksF Fields.nil ++ x) = fun x : List Token => x from by
      funext x; simp [toksF]]
    cases lexL cs with
    | error d => rfl
    | ok ts => rfl
  | cons k v rest =>
    simp only [validF, Bool.and_eq_true] at hv
    cases rest with
    | nil =>
      rw [show serPF ind lvl (Fields.cons k v Fields.nil) ++ cs =
        spaces (ind * lvl) ++ (strLitChars k ++
          (':' :: (' ' :: (serPV ind lvl v ++ cs)))) from by
          simp [serPF, List.append_assoc]]
      rw [lexL_spaces, lexL_strTok, lexL_colon, lexL_ws ' ' (by decide),
        lexP_V ind lvl v hv.1 cs hsep, exmap_map, exmap_map]
      apply exmap_congr
      intro x
      simp [toksF]
    | cons k2 v2 rest2 =>
      rw [show serPF ind lvl (Fields.cons k v (Fields.cons k2 v2 rest2)) ++ cs =
        spaces (ind * lvl) ++ (strLitChars k ++
          (':' :: (' ' :: (serPV ind lvl v ++
            (',' :: ('\n' :: (serPF ind lvl (Fields.cons k2 v2 rest2) ++ cs))))))) from by
          simp [serPF, List.append_assoc]]
      rw [lexL_spaces, lexL_strTok, lexL_colon, lexL_ws ' ' (by decide),
        lexP_V ind lvl v hv.1
          (',' :: ('\n' :: (serPF ind lvl (Fields.cons k2 v2 rest2) ++ cs))) rfl,
        lexL_comma, lexL_nl,
        lexP_F ind lvl (Fields.cons k2 v2 rest2) hv.2 cs hsep,
        exmap_map, exmap_map, exmap_map, exmap_map]
      apply exmap_congr
      intro x
      simp [toksF]

/-- Lexing the pretty serialization of valid array elements. -/
theorem lexP_E (ind lvl : Nat) (es : Elems) (hv : validE es = true)
    (cs : List Char) (hsep : headSepOK cs = true) :
    lexL (serPE ind lvl es ++ cs) = (lexL cs).map (toksE es ++ ·) := by
  cases es with
  | nil =>
    rw [show serPE ind lvl Elems.nil ++ cs = cs from by simp [serPE]]
    apply Eq.symm
    rw [show (fun x => toksE Elems.nil ++ x) = fun x : List Token => x from by
      funext x; simp [toksE]]
    cases lexL cs with
    | error d => rfl
    | ok ts => rfl
  | cons v rest =>
    simp only [validE, Bool.and_eq_true] at hv
    cases rest with
    | nil =>
      rw [show serPE ind lvl (Elems.cons v Elems.nil) ++ cs =
        spaces (ind * lvl) ++ (serPV ind lvl v ++ cs) from by
          simp [serPE, List.append_assoc]]
      rw [lexL_spaces, lexP_V ind lvl v hv.1 cs hsep]
      apply exmap_congr
      intro x
      simp [toksE]
    | cons v2 rest2 =>
      rw [show serPE ind lvl (Elems.cons v (Elems.cons v2 rest2)) ++ cs =
        spaces (ind * lvl) ++ (serPV ind lvl v ++
          (',' :: ('\n' :: (serPE ind lvl (Elems.cons v2 rest2) ++ cs)))) from by
          simp [serPE, List.append_assoc]]
      rw [lexL_spaces,
        lexP_V ind lvl v hv.1
          (',' :: ('\n' :: (serPE ind lvl (Elems.cons v2 rest2) ++ cs))) rfl,
        lexL_comma, lexL_nl,
        lexP_E ind lvl (Elems.cons v2 rest2) hv.2 cs hsep,
        exmap_map, exmap_map]
      apply exmap_congr
      intro x
      simp [toksE]
end

/-- Unfolding of the parser on a number token. -/
theorem parseRun_val_num (f : Nat) (ts : List Token) (neg : Bool) (i : Nat)
    (t : NumTail) (sfx : String) :
    parseRun (f + 1) (PJob.val (Token.num neg i t sfx :: ts)) =
      (match resolveNum neg i t sfx with
        | Except.ok v => Except.ok (v, ts)
        | Except.error d => Except.error d) := rfl

/-- Unfolding of the parser on a string token: the bound defaults to
unbounded. -/
theorem parseRun_val_str (f : Nat) (ts : List Token) (s : String) :
    parseRun (f + 1) (PJob.val (Token.str s :: ts)) =
      Except.ok (Value.str s none, ts) := rfl

/-- Unfolding of the parser on a boolean token. -/
theorem parseRun_val_bool (f : Nat) (ts : List Token) (b : Bool) :
    parseRun (f + 1) (PJob.val (Token.tbool b :: ts)) =
      Except.ok (Value.bool b, ts) := rfl

/-- Unfolding of the parser on the null token. -/
theorem parseRun_val_null (f : Nat) (ts : List Token) :
    parseRun (f + 1) (PJob.val (Token.tnull :: ts)) =
      Except.ok (Value.null, ts) := rfl

/-- Unfolding of the parser on an opening brace. -/
theorem parseRun_val_lbrace (f : Nat) (ts2 : List Token) :
    parseRun (f + 1) (PJob.val (Token.lbrace :: ts2)) =
      (match ts2 with
        | Token.rbrace :: ts3 => Except.ok (Value.object Fields.nil, ts3)
        | _ => parseRun f (PJob.objFields Fields.nil ts2)) := rfl

/-- Unfolding of the parser on an opening bracket. -/
theorem parseRun_val_lbrack (f : Nat) (ts2 : List Token) :
    parseRun (f + 1) (PJob.val (Token.lbrack :: ts2)) =
      (match ts2 with
        | Token.rbrack :: ts3 => Except.ok (Value.array Elems.nil, ts3)
        | _ => parseRun f (PJob.arrElems Elems.nil ts2)) := rfl

/-- Unfolding of the parser on one object field. -/
theorem parseRun_objF (f : Nat) (acc : Fields) (k : String) (ts : List Token) :
    parseRun (f + 1) (PJob.objFields acc (Token.str k :: Token.colon :: ts)) =
      (match parseRun f (PJob.val ts) with
        | Except.error d => Except.error d
        | Except.ok (v, ts4) =>
          if hasKeyF acc k then Except.error (mkDiag ErrKind.duplicateKey)
          else
            match ts4 with
            | Token.comma :: ts5 =>
              parseRun f (PJob.objFields (appendF acc (Fields.cons k v Fields.nil)) ts5)
            | Token.rbrace :: ts5 =>
              Except.ok (Value.object (appendF acc (Fields.cons k v Fields.nil)), ts5)
            | _ :: _ => Except.error (mkDiag ErrKind.unexpectedToken)
            | [] => Except.error (mkDiag ErrKind.unexpectedEof)) := rfl

/-- Unfolding of the parser on one array element. -/
theorem parseRun_arrE (f : Nat) (acc : Elems) (ts : List Token) :
    parseRun (f + 1) (PJob.arrElems acc ts) =
      (match parseRun f (PJob.val ts) with
        | Except.error d => Except.error d
        | Except.ok (v, ts2) =>
          match ts2 with
          | Token.comma :: ts3 =>
            parseRun f (PJob.arrElems (appendE acc (Elems.cons v Elems.nil)) ts3)
          | Token.rbrack :: ts3 =>
            Except.ok (Value.array (appendE acc (Elems.cons v Elems.nil)), ts3)
          | _ :: _ => Except.error (mkDiag ErrKind.unexpectedToken)
          | [] => Except.error (mkDiag ErrKind.unexpectedEof)) := rfl

/-- Applying the sign of an integer to its absolute value restores it. -/
theorem signApply_natAbs (v : Int) : signApply (decide (v < 0)) v.natAbs = v := by
  unfold signApply
  by_cases h : v < 0
  · rw [if_pos (by simpa using h)]
    omega
  · rw [if_neg (by simpa using h)]
    omega

/-- Type resolution of an unsuffixed integer literal: default signed
64-bit with a range check. -/
theorem resolveNum_default_int (neg : Bool) (i : Nat) :
    resolveNum neg i NumTail.int "" =
      if intFits IntW.i64 (signApply neg i) then
        Except.ok (Value.i64 (signApply neg i))
      else Except.error (mkDiag ErrKind.intOutOfRange) := rfl

/-- Type resolution of an integer literal with an explicit width
suffix. -/
theorem resolveNum_intW (w : IntW) (neg : Bool) (i : Nat) :
    resolveNum neg i NumTail.int w.sfxStr =
      if intFits w (signApply neg i) then
        Except.ok (mkIntV w (signApply neg i))
      else Except.error (mkDiag ErrKind.intOutOfRange) := by
  cases w <;> rfl

/-- Type resolution of an unsuffixed fractional literal: default 64-bit
float. -/
theorem resolveNum_frac_f64 (neg : Bool) (i f fc : Nat) :
    resolveNum neg i (NumTail.frac f fc) "" =
      Except.ok (Value.f64 (signApply neg (i * 10 ^ fc + f)) fc) := rfl

/-- Type resolution of a fractional literal with the `f32` suffix. -/
theorem resolveNum_frac_f32 (neg : Bool) (i f fc : Nat) :
    resolveNum neg i (NumTail.frac f fc) "f32" =
      Except.ok (Value.f32 (signApply neg (i * 10 ^ fc + f)) fc) := rfl

/-- Key membership distributes over field concatenation. -/
theorem hasKeyF_appendF : ∀ (a b : Fields) (k : String),
    hasKeyF (appendF a b) k = (hasKeyF a k || hasKeyF b k)
  | Fields.nil, b, k => by simp [appendF, hasKeyF]
  | Fields.cons k' v' a', b, k => by
    simp [appendF, hasKeyF, hasKeyF_appendF a' b k, Bool.or_assoc]

/-- Moving a single appended field into the front of the next run. -/
theorem appendF_assoc : ∀ (a : Fields) (k : String) (v : Value) (b : Fields),
    appendF (appendF a (Fields.cons k v Fields.nil)) b =
      appendF a (Fields.cons k v b)
  | Fields.nil, k, v, b => by simp [appendF]
  | Fields.cons k' v' a', k, v, b => by simp [appendF, appendF_assoc a' k v b]

/-- Moving a single appended element into the front of the next run. -/
theorem appendE_assoc : ∀ (a : Elems) (v : Value) (b : Elems),
    appendE (appendE a (Elems.cons v Elems.nil)) b =
      appendE a (Elems.cons v b)
  | Elems.nil, v, b => by simp [appendE]
  | Elems.cons v' a', v, b => by simp [appendE, appendE_assoc a' v b]

/-- The mantissa of a serialized float splits into its decimal integer
and fractional parts. -/
theorem mantissa_split (m : Int) (s : Nat) :
    m.natAbs / 10 ^ s * 10 ^ s + m.natAbs % 10 ^ s = m.natAbs := by
  rw [Nat.mul_comm]
  exact Nat.div_add_mod _ _

/-- The token stream of fields starts with a key and a colon. -/
theorem toksF_cons_shape (k : String) (v : Value) (r : Fields) :
    ∃ T, toksF (Fields.cons k v r) = Token.str k :: Token.colon :: T := by
  cases r with
  | nil => exact ⟨toksV v, rfl⟩
  | cons k2 v2 r2 =>
    refine ⟨toksV v ++ Token.comma :: toksF (Fields.cons k2 v2 r2), ?_⟩
    simp [toksF]

/-- Every token stream of a value is nonempty and does not start with a
closing bracket. -/
theorem toksV_shape (v : Value) :
    ∃ t T, toksV v = t :: T ∧ t ≠ Token.rbrack := by
  cases v with
  | i8 x => exact ⟨_, _, rfl, by simp⟩
  | i16 x => exact ⟨_, _, rfl, by simp⟩
  | i32 x => exact ⟨_, _, rfl, by simp⟩
  | i64 x => exact ⟨_, _, rfl, by simp⟩
  | u8 x => exact ⟨_, _, rfl, by simp⟩
  | u16 x => exact ⟨_, _, rfl, by simp⟩
  | u32 x => exact ⟨_, _, rfl, by simp⟩
  | u64 x => exact ⟨_, _, rfl, by simp⟩
  | f32 m s => exact ⟨_, _, rfl, by simp⟩
  | f64 m s => exact ⟨_, _, rfl, by simp⟩
  | str s b => exact ⟨_, _, rfl, by simp⟩
  | bool b => exact ⟨_, _, rfl, by simp⟩
  | null => exact ⟨_, _, rfl, by simp⟩
  | object fs =>
    exact ⟨Token.lbrace, toksF fs ++ [Token.rbrace], by simp [toksV], by simp⟩
  | array es =>
    exact ⟨Token.lbrack, toksE es ++ [Token.rbrack], by simp [toksV], by simp⟩

mutual
/-- The parser reconstructs every valid, bound-free value from its token
stream, leaving the continuation untouched. -/
theorem parse_V (v : Value) (hv : validV v = true) (hb : noBoundsV v = true) :
    ∀ fuel, needV v ≤ fuel → ∀ rest,
      parseRun fuel (PJob.val (toksV v ++ rest)) = Except.ok (v, rest) := by
  cases v with
  | i8 x =>
    intro fuel hf rest
    obtain ⟨f, rfl⟩ : ∃ f, fuel = f + 1 := ⟨fuel - 1, by simp [needV] at hf; omega⟩
    simp only [validV, decide_eq_true_eq] at hv
    rw [show toksV (Value.i8 x) ++ rest =
      Token.num (decide (x < 0)) x.natAbs NumTail.int "i8" :: rest from rfl]
    rw [parseRun_val_num, show ("i8" : String) = IntW.i8.sfxStr from rfl,
      resolveNum_intW IntW.i8, signApply_natAbs x]
    rw [if_pos (by simp only [intFits, IntW.lo, IntW.hi, decide_eq_true_eq]; exact hv)]
    all_goals rfl
  | i16 x =>
    intro fuel hf rest
    obtain ⟨f, rfl⟩ : ∃ f, fuel = f + 1 := ⟨fuel - 1, by simp [needV] at hf; omega⟩
    simp only [validV, decide_eq_true_eq] at hv
    rw [show toksV (Value.i16 x) ++ rest =
      Token.num (decide (x < 0)) x.natAbs NumTail.int "i16" :: rest from rfl]
    rw [parseRun_val_num, show ("i16" : String) = IntW.i16.sfxStr from rfl,
      resolveNum_intW IntW.i16, signApply_natAbs x]
    rw [if_pos (by simp only [intFits, IntW.lo, IntW.hi, decide_eq_true_eq]; exact hv)]
    all_goals rfl
  | i32 x =>
    intro fuel hf rest
    obtain ⟨f, rfl⟩ : ∃ f, fuel = f + 1 := ⟨fuel - 1, by simp [needV] at hf; omega⟩
    simp only [validV, decide_eq_true_eq] at hv
    rw [show toksV (Value.i32 x) ++ rest =
      Token.num (decide (x < 0)) x.natAbs NumTail.int "i32" :: rest from rfl]
    rw [parseRun_val_num, show ("i32" : String) = IntW.i32.sfxStr from rfl,
      resolveNum_intW IntW.i32, signApply_natAbs x]
    rw [if_pos (by simp only [intFits, IntW.lo, IntW.hi, decide_eq_true_eq]; exact hv)]
    all_goals rfl
  | i64 x =>
    intro fuel hf rest
    obtain ⟨f, rfl⟩ : ∃ f, fuel = f + 1 := ⟨fuel - 1, by simp [needV] at hf; omega⟩
    simp only [validV, decide_eq_true_eq] at hv
    rw [show toksV (Value.i64 x) ++ rest =
      Token.num (decide (x < 0)) x.natAbs NumTail.int "" :: rest from rfl]
    rw [parseRun_val_num, resolveNum_default_int, signApply_natAbs x]
    rw [if_pos (by simp only [intFits, IntW.lo, IntW.hi, decide_eq_true_eq]; exact hv)]
  | u8 x =>
    intro fuel hf rest
    obtain ⟨f, rfl⟩ : ∃ f, fuel = f + 1 := ⟨fuel - 1, by simp [needV] at hf; omega⟩
    simp only [validV, decide_eq_true_eq] at hv
    rw [show toksV (Value.u8 x) ++ rest =
      Token.num false x NumTail.int "u8" :: rest from rfl]
    rw [parseRun_val_num, show ("u8" : String) = IntW.u8.sfxStr from rfl,
      resolveNum_intW IntW.u8]
    rw [if_pos (by simp only [intFits, IntW.lo, IntW.hi, signApply,
      Bool.false_eq_true, if_false, decide_eq_true_eq]; omega)]
    simp only [mkIntV, signApply, Bool.false_eq_true, if_false, Int.toNat_natCast]
  | u16 x =>
    intro fuel hf rest
    obtain ⟨f, rfl⟩ : ∃ f, fuel = f + 1 := ⟨fuel - 1, by simp [needV] at hf; omega⟩
    simp only [validV, decide_eq_true_eq] at hv
    rw [show toksV (Value.u16 x) ++ rest =
      Token.num false x NumTail.int "u16" :: rest from rfl]
    rw [parseRun_val_num, show ("u16" : String) = IntW.u16.sfxStr from rfl,
      resolveNum_intW IntW.u16]
    rw [if_pos (by simp only [intFits, IntW.lo, IntW.hi, signApply,
      Bool.false_eq_true, if_false, decide_eq_true_eq]; omega)]
    simp only [mkIntV, signApply, Bool.false_eq_true, if_false, Int.toNat_natCast]
  | u32 x =>
    intro fuel hf rest
    obtain ⟨f, rfl⟩ : ∃ f, fuel = f + 1 := ⟨fuel - 1, by simp [needV] at hf; omega⟩
    simp only [validV, decide_eq_true_eq] at hv
    rw [show toksV (Value.u32 x) ++ rest =
      Token.num false x NumTail.int "u32" :: rest from rfl]
    rw [parseRun_val_num, show ("u32" : String) = IntW.u32.sfxStr from rfl,
      resolveNum_intW IntW.u32]
    rw [if_pos (by simp only [intFits, IntW.lo, IntW.hi, signApply,
      Bool.false_eq_true, if_false, decide_eq_true_eq]; omega)]
    simp only [mkIntV, signApply, Bool.false_eq_true, if_false, Int.toNat_natCast]
  | u64 x =>
    intro fuel hf rest
    obtain ⟨f, rfl⟩ : ∃ f, fuel = f + 1 := ⟨fuel - 1, by simp [needV] at hf; omega⟩
    simp only [validV, decide_eq_true_eq] at hv
    rw [show toksV (Value.u64 x) ++ rest =
      Token.num false x NumTail.int "u64" :: rest from rfl]
    rw [parseRun_val_num, show ("u64" : String) = IntW.u64.sfxStr from rfl,
      resolveNum_intW IntW.u64]
    rw [if_pos (by simp only [intFits, IntW.lo, IntW.hi, signApply,
      Bool.false_eq_true, if_false, decide_eq_true_eq]; omega)]
    simp only [mkIntV, signApply, Bool.false_eq_true, if_false, Int.toNat_natCast]
  | f32 m s =>
    intro fuel hf rest
    obtain ⟨f, rfl⟩ : ∃ f, fuel = f + 1 := ⟨fuel - 1, by simp [needV] at hf; omega⟩
    rw [show toksV (Value.f32 m s) ++ rest =
      Token.num (decide (m < 0)) (m.natAbs / 10 ^ s)
        (NumTail.frac (m.natAbs % 10 ^ s) s) "f32" :: rest from rfl]
    rw [parseRun_val_num, resolveNum_frac_f32, mantissa_split m s,
      signApply_natAbs m]
  | f64 m s =>
    intro fuel hf rest
    obtain ⟨f, rfl⟩ : ∃ f, fuel = f + 1 := ⟨fuel - 1, by simp [needV] at hf; omega⟩
    rw [show toksV (Value.f64 m s) ++ rest =
      Token.num (decide (m < 0)) (m.natAbs / 10 ^ s)
        (NumTail.frac (m.natAbs % 10 ^ s) s) "" :: rest from rfl]
    rw [parseRun_val_num, resolveNum_frac_f64, mantissa_split m s,
      signApply_natAbs m]
  | str s b =>
    intro fuel hf rest
    obtain ⟨f, rfl⟩ : ∃ f, fuel = f + 1 := ⟨fuel - 1, by simp [needV] at hf; omega⟩
    simp only [noBoundsV, Option.isNone_iff_eq_none] at hb
    subst hb
    rw [show toksV (Value.str s none) ++ rest = Token.str s :: rest from rfl]
    rw [parseRun_val_str]
  | bool b =>
    intro fuel hf rest
    obtain ⟨f, rfl⟩ : ∃ f, fuel = f + 1 := ⟨fuel - 1, by simp [needV] at hf; omega⟩
    rw [show toksV (Value.bool b) ++ rest = Token.tbool b :: rest from rfl]
    rw [parseRun_val_bool]
  | null =>
    intro fuel hf rest
    obtain ⟨f, rfl⟩ : ∃ f, fuel = f + 1 := ⟨fuel - 1, by simp [needV] at hf; omega⟩
    rw [show toksV Value.null ++ rest = Token.tnull :: rest from rfl]
    rw [parseRun_val_null]
  | object fs =>
    intro fuel hf rest
    obtain ⟨f, rfl⟩ : ∃ f, fuel = f + 1 := ⟨fuel - 1, by simp [needV] at hf; omega⟩
    simp only [needV] at hf
    cases fs with
    | nil =>
      rw [show toksV (Value.object Fields.nil) ++ rest =
        Token.lbrace :: (Token.rbrace :: rest) from rfl]
      rw [parseRun_val_lbrace]
    | cons k v r =>
      simp only [validV, Bool.and_eq_true] at hv
      simp only [noBoundsV] at hb
      have hrec := parse_F (Fields.cons k v r) hv.1 hv.2 hb Fields.nil
        (fun k' _ => rfl) f (by omega) rest (by simp)
      rw [show toksV (Value.object (Fields.cons k v r)) ++ rest =
        Token.lbrace :: (toksF (Fields.cons k v r) ++ (Token.rbrace :: rest)) from by
          simp [toksV, List.append_assoc]]
      rw [parseRun_val_lbrace]
      obtain ⟨T, hT⟩ := toksF_cons_shape k v r
      rw [hT, List.cons_append, List.cons_append]
      simp only
      rw [← List.cons_append, ← List.cons_append, ← hT, hrec]
      rfl
  | array es =>
    intro fuel hf rest
    obtain ⟨f, rfl⟩ : ∃ f, fuel = f + 1 := ⟨fuel - 1, by simp [needV] at hf; omega⟩
    simp only [needV] at hf
    cases es with
    | nil =>
      rw [show toksV (Value.array Elems.nil) ++ rest =
        Token.lbrack :: (Token.rbrack :: rest) from rfl]
      rw [parseRun_val_lbrack]
    | cons v r =>
      simp only [validV] at hv
      simp only [noBoundsV] at hb
      have hrec := parse_E (Elems.cons v r) hv hb Elems.nil f (by omega) rest (by simp)
      rw [show toksV (Value.array (Elems.cons v r)) ++ rest =
        Token.lbrack :: (toksE (Elems.cons v r) ++ (Token.rbrack :: rest)) from by
          simp [toksV, List.append_assoc]]
      rw [parseRun_val_lbrack]
      obtain ⟨t, T, hT, hne⟩ := toksV_shape v
      have hX : ∃ X, toksE (Elems.cons v r) ++ (Token.rbrack :: rest) = t :: X := by
        cases r with
        | nil =>
          exact ⟨T ++ (Token.rbrack :: rest), by simp [toksE, hT]⟩
        | cons v2 r2 =>
          refine ⟨T ++ (Token.comma ::
            (toksE (Elems.cons v2 r2) ++ (Token.rbrack :: rest))), ?_⟩
          simp [toksE, hT, List.append_assoc]
      obtain ⟨X, hX⟩ := hX
      rw [hX]
      have hmatch : (match t :: X with
          | Token.rbrack :: ts3 => Except.ok (Value.array Elems.nil, ts3)
          | _ => parseRun f (PJob.arrElems Elems.nil (t :: X))) =
          parseRun f (PJob.arrElems Elems.nil (t :: X)) := by
        cases t
        all_goals first
          | rfl
          | exact absurd rfl hne
      rw [hmatch, ← hX, hrec]
      rfl

/-- The parser reconstructs the remaining fields of a nonempty object,
appending them to the accumulated fields. -/
theorem parse_F (fs : Fields) (hv : validF fs = true) (hnd : nodupKeys fs = true)
    (hb : noBoundsF fs = true) :
    ∀ acc, (∀ k, hasKeyF fs k = true → hasKeyF acc k = false) →
    ∀ fuel, needF fs ≤ fuel → ∀ rest, fs ≠ Fields.nil →
      parseRun fuel (PJob.objFields acc (toksF fs ++ (Token.rbrace :: rest))) =
        Except.ok (Value.object (appendF acc fs), rest) := by
  cases fs with
  | nil => intro acc _ fuel _ rest hne; exact absurd rfl hne
  | cons k v r =>
    intro acc hdisj fuel hf rest _
    obtain ⟨f, rfl⟩ : ∃ f, fuel = f + 1 := ⟨fuel - 1, by simp [needF] at hf; omega⟩
    simp only [needF] at hf
    simp only [validF, Bool.and_eq_true] at hv
    simp only [nodupKeys, Bool.and_eq_true, Bool.not_eq_true'] at hnd
    simp only [noBoundsF, Bool.and_eq_true] at hb
    have hacc : hasKeyF acc k = false := hdisj k (by simp [hasKeyF])
    cases r with
    | nil =>
      rw [show toksF (Fields.cons k v Fields.nil) ++ (Token.rbrace :: rest) =
        Token.str k :: Token.colon :: (toksV v ++ (Token.rbrace :: rest)) from by
          simp [toksF]]
      rw [parseRun_objF, parse_V v hv.1 hb.1 f (by omega) (Token.rbrace :: rest)]
      simp only
      rw [if_neg (by simp [hacc])]
    | cons k2 v2 r2 =>
      rw [show toksF (Fields.cons k v (Fields.cons k2 v2 r2)) ++ (Token.rbrace :: rest) =
        Token.str k :: Token.colon :: (toksV v ++
          (Token.comma :: (toksF (Fields.cons k2 v2 r2) ++ (Token.rbrace :: rest)))) from by
          simp [toksF, List.append_assoc]]
      rw [parseRun_objF, parse_V v hv.1 hb.1 f (by omega) _]
      simp only
      rw [if_neg (by simp [hacc])]
      have hdisj2 : ∀ k3, hasKeyF (Fields.cons k2 v2 r2) k3 = true →
          hasKeyF (appendF acc (Fields.cons k v Fields.nil)) k3 = false := by
        intro k3 h3
        rw [hasKeyF_appendF]
        have h4 : hasKeyF acc k3 = false := by
          apply hdisj
          simp only [hasKeyF, Bool.or_eq_true]
          right
          simpa [hasKeyF, Bool.or_eq_true] using h3
        have h5 : k ≠ k3 := by
          intro heq
          subst heq
          rw [h3] at hnd
          exact absurd hnd.1 (by simp)
        simp [hasKeyF, h4, h5]
      rw [parse_F (Fields.cons k2 v2 r2) hv.2 hnd.2 hb.2
        (appendF acc (Fields.cons k v Fields.nil)) hdisj2 f (by omega) rest
        (by intro h; exact absurd h (by simp))]
      rw [appendF_assoc]

/-- The parser reconstructs the remaining elements of a nonempty array,
appending them to the accumulated elements. -/
theorem parse_E (es : Elems) (hv : validE es = true) (hb : noBoundsE es = true) :
    ∀ acc fuel, needE es ≤ fuel → ∀ rest,
      es ≠ Elems.nil →
      parseRun fuel (PJob.arrElems acc (toksE es ++ (Token.rbrack :: rest))) =
        Except.ok (Value.array (appendE acc es), rest) := by
  cases es with
  | nil => intro acc fuel _ rest hne; exact absurd rfl hne
  | cons v r =>
    intro acc fuel hf rest _
    obtain ⟨f, rfl⟩ : ∃ f, fuel = f + 1 := ⟨fuel - 1, by simp [needE] at hf; omega⟩
    simp only [needE] at hf
    simp only [validE, Bool.and_eq_true] at hv
    simp only [noBoundsE, Bool.and_eq_true] at hb
    cases r with
    | nil =>
      rw [show toksE (Elems.cons v Elems.nil) ++ (Token.rbrack :: rest) =
        toksV v ++ (Token.rbrack :: rest) from by simp [toksE]]
      rw [parseRun_arrE, parse_V v hv.1 hb.1 f (by omega) (Token.rbrack :: rest)]
    | cons v2 r2 =>
      rw [show toksE (Elems.cons v (Elems.cons v2 r2)) ++ (Token.rbrack :: rest) =
        toksV v ++ (Token.comma ::
          (toksE (Elems.cons v2 r2) ++ (Token.rbrack :: rest))) from by
          simp [toksE, List.append_assoc]]
      rw [parseRun_arrE, parse_V v hv.1 hb.1 f (by omega) _]
      simp only
      rw [parse_E (Elems.cons v2 r2) hv.2 hb.2
        (appendE acc (Elems.cons v Elems.nil)) f (by omega) rest
        (by intro h; exact absurd h (by simp))]
      rw [appendE_assoc]
end

mutual
/-- The parser fuel needed by a value is bounded by its token count. -/
theorem needV_le (v : Value) : needV v ≤ (toksV v).length := by
  cases v with
  | object fs =>
    have := needF_le fs
    simp only [needV, toksV, List.length_cons, List.length_append,
      List.length_nil]
    omega
  | array es =>
    have := needE_le es
    simp only [needV, toksV, List.length_cons, List.length_append,
      List.length_nil]
    omega
  | i8 x => simp [needV, toksV]
  | i16 x => simp [needV, toksV]
  | i32 x => simp [needV, toksV]
  | i64 x => simp [needV, toksV]
  | u8 x => simp [needV, toksV]
  | u16 x => simp [needV, toksV]
  | u32 x => simp [needV, toksV]
  | u64 x => simp [needV, toksV]
  | f32 m s => simp [needV, toksV]
  | f64 m s => simp [needV, toksV]
  | str s b => simp [needV, toksV]
  | bool b => simp [needV, toksV]
  | null => simp [needV, toksV]

/-- The parser fuel needed by fields is bounded by their token count plus
one. -/
theorem needF_le (fs : Fields) : needF fs ≤ (toksF fs).length + 1 := by
  cases fs with
  | nil => simp [needF, toksF]
  | cons k v r =>
    cases r with
    | nil =>
      have := needV_le v
      simp only [needF, toksF, List.length_cons, List.length_append,
        List.length_nil, needF]
      omega
    | cons k2 v2 r2 =>
      have h1 := needV_le v
      have h2 := needF_le (Fields.cons k2 v2 r2)
      simp only [needF, toksF, List.length_cons, List.length_append,
        List.length_nil] at h2 ⊢
      omega

/-- The parser fuel needed by elements is bounded by their token count
plus one. -/
theorem needE_le (es : Elems) : needE es ≤ (toksE es).length + 1 := by
  cases es with
  | nil => simp [needE, toksE]
  | cons v r =>
    cases r with
    | nil =>
      have := needV_le v
      simp only [needE, toksE, List.length_cons, List.length_append,
        List.length_nil, needE]
      omega
    | cons v2 r2 =>
      have h1 := needV_le v
      have h2 := needE_le (Elems.cons v2 r2)
      simp only [needE, toksE, List.length_cons, List.length_append,
        List.length_nil] at h2 ⊢
      omega
end

/-- The token-level round trip: parsing the token stream of a valid,
bound-free value yields exactly that value. -/
theorem parseToks_toksV (v : Value) (hv : validV v = true)
    (hb : noBoundsV v = true) : parseToks (toksV v) = Except.ok v := by
  unfold parseToks
  have h1 := parse_V v hv hb ((toksV v).length + 1)
    (by have := needV_le v; omega) []
  rw [List.append_nil] at h1
  rw [h1]

/-- Lexing the compact serialization of a valid value yields its token
stream. -/
theorem lex_serializeCompact (v : Value) (hv : validV v = true) :
    lex (serializeCompact v) = Except.ok (toksV v) := by
  show lexL (toksChars (toksV v)) = _
  rw [← List.append_nil (toksChars (toksV v)), lexC_V v hv [] rfl,
    show lexL ([] : List Char) = Except.ok ([] : List Token) from rfl,
    exmap_ok, List.append_nil]

/-- Lexing the pretty serialization of a valid value yields its token
stream, for any configuration. -/
theorem lex_serializePretty (cfg : GblnConfig) (v : Value) (hv : validV v = true) :
    lex (serializePretty cfg v) = Except.ok (toksV v) := by
  show lexL (serPV cfg.indent 0 v) = _
  rw [← List.append_nil (serPV cfg.indent 0 v), lexP_V cfg.indent 0 v hv [] rfl,
    show lexL ([] : List Char) = Except.ok ([] : List Token) from rfl,
    exmap_ok, List.append_nil]

/-- Compact round trip for valid, bound-free values. -/
theorem roundtrip_compact (v : Value) (hv : validV v = true)
    (hb : noBoundsV v = true) :
    gbln_parse (serializeCompact v) = Except.ok v := by
  unfold gbln_parse
  rw [lex_serializeCompact v hv]
  exact parseToks_toksV v hv hb

/-- Pretty round trip for valid, bound-free values, any configuration. -/
theorem roundtrip_pretty (cfg : GblnConfig) (v : Value) (hv : validV v = true)
    (hb : noBoundsV v = true) :
    gbln_parse (serializePretty cfg v) = Except.ok v := by
  unfold gbln_parse
  rw [lex_serializePretty cfg v hv]
  exact parseToks_toksV v hv hb

/-- C1 (amended): for every valid Value tree whose string bounds are all
the default unbounded bound, parsing the compact serialization yields a
value structurally equal to the tree, including numeric width tags; the
same holds for the pretty serialization under any configuration (the
indent is a natural number, so every configuration has indent at least
zero).  A non-default string bound does not round-trip, because the text
grammar has no syntax for string bounds: the amendment restricts the
claim to trees with default bounds (see the counterexample theorem). -/
theorem c1_roundtrip (v : Value) (h1 : validV v = true)
    (h2 : noBoundsV v = true) :
    gbln_parse (serializeCompact v) = Except.ok v ∧
    ∀ cfg : GblnConfig, gbln_parse (serializePretty cfg v) = Except.ok v :=
  ⟨roundtrip_compact v h1 h2, fun cfg => roundtrip_pretty cfg v h1 h2⟩

/-- C1 counterexample: the string value `x` with declared bound 5 is a
valid tree, yet parsing its compact serialization does not return a value
structurally equal to it — the parsed string carries the default
unbounded bound, refuting the claim as stated. -/
theorem c1_counterexample :
    validV (Value.str "x" (some 5)) = true ∧
    ¬(gbln_parse (serializeCompact (Value.str "x" (some 5))) =
        Except.ok (Value.str "x" (some 5))) := by
  refine ⟨rfl, ?_⟩
  intro h
  rw [show gbln_parse (serializeCompact (Value.str "x" (some 5))) =
    Except.ok (Value.str "x" none) from rfl] at h
  simp at h

/-- C1 witness: the amended round trip at a concrete tree with unsigned,
negative, float, boolean and string leaves, in compact mode and in pretty
mode under the IO preset configuration. -/
theorem c1_roundtrip_witness :
    validV sampleValue = true ∧ noBoundsV sampleValue = true ∧
    gbln_parse (serializeCompact sampleValue) = Except.ok sampleValue ∧
    gbln_parse (serializePretty gbln_config_new_io sampleValue) =
      Except.ok sampleValue :=
  ⟨rfl, rfl, (c1_roundtrip sampleValue rfl rfl).1,
    (c1_roundtrip sampleValue rfl rfl).2 gbln_config_new_io⟩

/-- C2: the input text parses to an object with exactly the three fields
of `c2Example` in insertion order — the signed 8-bit 5, the array of
default-width signed 64-bit 1, 2, 3, and the string `x` — and compact
serialization of that tree reproduces the input byte for byte, with a
width suffix only on the 8-bit field. -/
theorem c2_end_to_end :
    gbln_parse "\x7b\"a\":5i8,\"list\":[1,2,3],\"name\":\"x\"\x7d" =
      Except.ok c2Example ∧
    serializeCompact c2Example = "\x7b\"a\":5i8,\"list\":[1,2,3],\"name\":\"x\"\x7d" :=
  ⟨rfl, rfl⟩

/-- C3: parsing `200i8` fails with `IntOutOfRange`, parsing `127i8`
succeeds with the signed 8-bit value 127, and in general an integer
literal with an explicit width suffix parses successfully exactly when
its decimal value fits the range of that width, failing with
`IntOutOfRange` otherwise. -/
theorem c3_range_enforcement :
    gbln_parse "200i8" = Except.error (mkDiag ErrKind.intOutOfRange) ∧
    gbln_parse "127i8" = Except.ok (Value.i8 127) ∧
    ∀ (w : IntW) (neg : Bool) (n : Nat),
      gbln_parse (intLitStr neg n w) =
        (if intFits w (signApply neg n) then
          Except.ok (mkIntV w (signApply neg n))
        else Except.error (mkDiag ErrKind.intOutOfRange)) := by
  refine ⟨rfl, rfl, ?_⟩
  intro w neg n
  unfold gbln_parse intLitStr
  have hlex : lex (String.mk (numChars neg n NumTail.int w.sfxStr)) =
      Except.ok [Token.num neg n NumTail.int w.sfxStr] := by
    show lexL (numChars neg n NumTail.int w.sfxStr) = _
    rw [← List.append_nil (numChars neg n NumTail.int w.sfxStr),
      lexL_numTok neg n NumTail.int w.sfxStr [] (by cases w <;> rfl) rfl rfl]
    rfl
  rw [hlex]
  simp only
  unfold parseToks
  rw [show ([Token.num neg n NumTail.int w.sfxStr] : List Token).length + 1 =
    1 + 1 from rfl]
  rw [parseRun_val_num, resolveNum_intW w]
  by_cases hfit : intFits w (signApply neg n) = true
  · rw [if_pos hfit]
  · rw [if_neg hfit]

/-- C4: parsing an object with a repeated key fails with `DuplicateKey`;
the error result carries only the Diagnostic, so no partially built tree
is returned; and in general, whenever the parser has an object under
construction that already holds a key and the field value under that
repeated key parses, the object job fails with `DuplicateKey`, discarding
the accumulated fields. -/
theorem c4_duplicate_key :
    gbln_parse "\x7b\"a\":1,\"a\":2\x7d" =
      Except.error (mkDiag ErrKind.duplicateKey) ∧
    ∀ (fuel : Nat) (acc : Fields) (k : String) (ts : List Token) (v : Value)
      (ts4 : List Token), hasKeyF acc k = true →
      parseRun fuel (PJob.val ts) = Except.ok (v, ts4) →
      parseRun (fuel + 1)
          (PJob.objFields acc (Token.str k :: Token.colon :: ts)) =
        Except.error (mkDiag ErrKind.duplicateKey) := by
  refine ⟨rfl, ?_⟩
  intro fuel acc k ts v ts4 hkey hval
  rw [parseRun_objF, hval]
  simp only
  rw [if_pos hkey]

/-- C4 witness: the object under construction already maps the key `a`;
the new field value 2 parses, and the field job fails with
`DuplicateKey`. -/
theorem c4_duplicate_key_witness :
    hasKeyF (Fields.cons "a" (Value.i64 1) Fields.nil) "a" = true ∧
    parseRun 1 (PJob.val [Token.num false 2 NumTail.int ""]) =
      Except.ok (Value.i64 2, []) ∧
    parseRun 2 (PJob.objFields (Fields.cons "a" (Value.i64 1) Fields.nil)
        (Token.str "a" :: Token.colon :: [Token.num false 2 NumTail.int ""])) =
      Except.error (mkDiag ErrKind.duplicateKey) :=
  ⟨rfl, rfl,
    c4_duplicate_key.2 1 (Fields.cons "a" (Value.i64 1) Fields.nil) "a"
      [Token.num false 2 NumTail.int ""] (Value.i64 2) [] rfl rfl⟩

/-- C5: inserting under a key already present fails with `DuplicateKey`
and hands the rejected child back to the caller (the object is left
unchanged — the failure result contains no modified object); inserting
into a non-object and pushing onto a non-array fail with `TypeMismatch`,
again returning the child; on success the child is owned by the returned
parent. -/
theorem c5_insert_push (fs : Fields) (k : String) (c : Value) :
    (hasKeyF fs k = true →
      gbln_object_insert (Value.object fs) k c =
        InsertResult.err ErrKind.duplicateKey c) ∧
    (hasKeyF fs k = false →
      gbln_object_insert (Value.object fs) k c =
        InsertResult.ok (Value.object (appendF fs (Fields.cons k c Fields.nil)))) ∧
    (∀ o : Value, (∀ gs, o ≠ Value.object gs) →
      gbln_object_insert o k c = InsertResult.err ErrKind.typeMismatch c) ∧
    (∀ a : Value, (∀ es, a ≠ Value.array es) →
      gbln_array_push a c = InsertResult.err ErrKind.typeMismatch c) := by
  refine ⟨?_, ?_, ?_, ?_⟩
  · intro h
    simp [gbln_object_insert, h]
  · intro h
    simp [gbln_object_insert, h]
  · intro o ho
    cases o with
    | object gs => exact absurd rfl (ho gs)
    | i8 x => rfl
    | i16 x => rfl
    | i32 x => rfl
    | i64 x => rfl
    | u8 x => rfl
    | u16 x => rfl
    | u32 x => rfl
    | u64 x => rfl
    | f32 m s => rfl
    | f64 m s => rfl
    | str s b => rfl
    | bool b => rfl
    | null => rfl
    | array es => rfl
  · intro a ha
    cases a with
    | array es => exact absurd rfl (ha es)
    | i8 x => rfl
    | i16 x => rfl
    | i32 x => rfl
    | i64 x => rfl
    | u8 x => rfl
    | u16 x => rfl
    | u32 x => rfl
    | u64 x => rfl
    | f32 m s => rfl
    | f64 m s => rfl
    | str s b => rfl
    | bool b => rfl
    | null => rfl
    | object gs => rfl

/-- C5 witness: a duplicate insert is rejected with the child returned, a
fresh insert succeeds with the child inside the parent, and insert and
push on an integer value fail with `TypeMismatch`. -/
theorem c5_insert_push_witness :
    gbln_object_insert (Value.object (Fields.cons "a" (Value.i64 1) Fields.nil))
        "a" (Value.i64 2) = InsertResult.err ErrKind.duplicateKey (Value.i64 2) ∧
    gbln_object_insert (Value.object (Fields.cons "a" (Value.i64 1) Fields.nil))
        "b" (Value.i64 2) = InsertResult.ok (Value.object
          (appendF (Fields.cons "a" (Value.i64 1) Fields.nil)
            (Fields.cons "b" (Value.i64 2) Fields.nil))) ∧
    gbln_object_insert (Value.i64 5) "a" (Value.i64 2) =
      InsertResult.err ErrKind.typeMismatch (Value.i64 2) ∧
    gbln_array_push (Value.i64 5) (Value.i64 2) =
      InsertResult.err ErrKind.typeMismatch (Value.i64 2) :=
  ⟨(c5_insert_push (Fields.cons "a" (Value.i64 1) Fields.nil) "a" (Value.i64 2)).1
      (by decide),
    (c5_insert_push (Fields.cons "a" (Value.i64 1) Fields.nil) "b" (Value.i64 2)).2.1
      (by decide),
    (c5_insert_push Fields.nil "a" (Value.i64 2)).2.2.1 (Value.i64 5)
      (fun gs h => Value.noConfusion h),
    (c5_insert_push Fields.nil "a" (Value.i64 2)).2.2.2 (Value.i64 5)
      (fun es h => Value.noConfusion h)⟩

/-- C6: constructing a string of ten characters under a declared bound of
five fails with `StringTooLong`, and every successfully constructed
string value carries its declared bound and content no longer than that
bound. -/
theorem c6_string_bound :
    gbln_value_new_str [104, 101, 108, 108, 111, 119, 111, 114, 108, 100] 5 =
      Except.error (mkDiag ErrKind.stringTooLong) ∧
    ∀ (bytes : List Nat) (max_len : Nat) (v : Value),
      gbln_value_new_str bytes max_len = Except.ok v →
      ∃ s : String, v = Value.str s (some max_len) ∧ s.length ≤ max_len := by
  refine ⟨rfl, ?_⟩
  intro bytes max_len v h
  unfold gbln_value_new_str at h
  cases hd : utf8Decode bytes with
  | none => rw [hd] at h; exact absurd h (by simp)
  | some cs =>
    rw [hd] at h
    simp only at h
    by_cases hlen : cs.length ≤ max_len
    · rw [if_pos hlen] at h
      simp only [Except.ok.injEq] at h
      exact ⟨String.mk cs, h.symm, hlen⟩
    · rw [if_neg hlen] at h
      exact absurd h (by simp)

/-- C6 witness: the two-character string `hi` under bound 5 is
constructed successfully, carries the declared bound, and satisfies the
length bound. -/
theorem c6_string_bound_witness :
    ∃ s : String, Value.str "hi" (some 5) = Value.str s (some 5) ∧ s.length ≤ 5 :=
  c6_string_bound.2 [104, 105] 5 (Value.str "hi" (some 5)) rfl

/-- C7: a file whose first six bytes are the fixed magic prefix is
decompressed and the decompressed bytes are handed to the parser,
regardless of the file name; a file without that prefix is parsed
directly; the result never depends on the file name. -/
theorem c7_magic_detection (dec : List Nat → Option (List Nat))
    (path1 path2 : String) (content : List Nat) :
    (content.take 6 = xzMagic → ∀ bs, dec content = some bs →
      gbln_read_io dec path1 content = parseBytes bs) ∧
    (content.take 6 ≠ xzMagic →
      gbln_read_io dec path1 content = parseBytes content) ∧
    gbln_read_io dec path1 content = gbln_read_io dec path2 content := by
  refine ⟨?_, ?_, rfl⟩
  · intro hmagic bs hdec
    unfold gbln_read_io
    rw [if_pos hmagic, hdec]
  · intro hmagic
    unfold gbln_read_io
    rw [if_neg hmagic]

/-- C7 witness: a content starting with the magic prefix is routed
through the decompressor and the decompressed text `5` parses; a content
without the prefix parses directly. -/
theorem c7_magic_detection_witness :
    gbln_read_io (fun _ => some [53]) "data.bin" (xzMagic ++ [0]) =
      parseBytes [53] ∧
    gbln_read_io (fun _ => some [53]) "data.bin" [53] = parseBytes [53] :=
  ⟨(c7_magic_detection (fun _ => some [53]) "data.bin" "other" (xzMagic ++ [0])).1
      (by decide) [53] rfl,
    (c7_magic_detection (fun _ => some [53]) "data.bin" "other" [53]).2.1
      (by decide)⟩

/-- C8: serialization is total over values — the compact and pretty
entry points always return text (never the absent result), and the text
is the deterministic function of the value and configuration. -/
theorem c8_serialization_total (v : Value) (cfg : GblnConfig) :
    gbln_to_string v = some (serializeCompact v) ∧
    gbln_to_string_pretty v = some (serializePretty gbln_config_new_source v) ∧
    (gbln_to_string v).isSome = true ∧
    (gbln_to_string_pretty v).isSome = true ∧
    ∃! s : String, serializePretty cfg v = s :=
  ⟨rfl, rfl, rfl, rfl, ⟨serializePretty cfg v, rfl, fun _ hy => hy.symm⟩⟩

/-- C9: recording a successful call clears the error slot, so the
last-message and last-suggestion accessors return the absent value; a
failing call stores its Diagnostic, and the accessors return exactly that
text. -/
theorem c9_error_channel {α : Type} (r : Except Diag α) (st : Option Diag) :
    (∀ (a : α) (st' : Option Diag), runCall r st = (some a, st') →
      gbln_last_error_message st' = none ∧
      gbln_last_error_suggestion st' = none) ∧
    (∀ d : Diag, r = Except.error d →
      runCall r st = (none, some d) ∧
      gbln_last_error_message (runCall r st).2 = some d.message ∧
      gbln_last_error_suggestion (runCall r st).2 = d.suggestion) := by
  cases r with
  | ok a =>
    refine ⟨?_, ?_⟩
    · intro a' st' h
      simp only [runCall, Prod.mk.injEq] at h
      rw [← h.2]
      exact ⟨rfl, rfl⟩
    · intro d hd
      exact absurd hd (by simp)
  | error d0 =>
    refine ⟨?_, ?_⟩
    · intro a' st' h
      simp only [runCall, Prod.mk.injEq] at h
      exact absurd h.1 (by simp)
    · intro d hd
      simp only [Except.error.injEq] at hd
      subst hd
      exact ⟨rfl, rfl, rfl⟩

/-- C9 witness: a successful parse clears the slot even when a stale
Diagnostic was pending, and a failing parse stores its Diagnostic, whose
message and suggestion the accessors return. -/
theorem c9_error_channel_witness :
    (gbln_last_error_message none = none ∧
      gbln_last_error_suggestion none = none) ∧
    (runCall (gbln_parse "@") (some (mkDiag ErrKind.io)) =
        (none, some (mkDiag ErrKind.unexpectedChar)) ∧
      gbln_last_error_message
          (runCall (gbln_parse "@") (some (mkDiag ErrKind.io))).2 =
        some (mkDiag ErrKind.unexpectedChar).message ∧
      gbln_last_error_suggestion
          (runCall (gbln_parse "@") (some (mkDiag ErrKind.io))).2 =
        (mkDiag ErrKind.unexpectedChar).suggestion) :=
  ⟨(c9_error_channel (gbln_parse "5") (some (mkDiag ErrKind.io))).1
      (Value.i64 5) none rfl,
    (c9_error_channel (gbln_parse "@") (some (mkDiag ErrKind.io))).2
      (mkDiag ErrKind.unexpectedChar) rfl⟩

/-- C10: byte sequences that are not valid UTF-8 are rejected by string
construction — no value is created, whatever the declared bound. -/
theorem c10_utf8_reject (bytes : List Nat) (max_len : Nat)
    (h : utf8Decode bytes = none) :
    ∀ v : Value, gbln_value_new_str bytes max_len ≠ Except.ok v := by
  intro v hcontra
  unfold gbln_value_new_str at hcontra
  rw [h] at hcontra
  exact absurd hcontra (by simp)

/-- C10 witness: the lone byte 255 is not valid UTF-8, and string
construction under a generous bound yields no value. -/
theorem c10_utf8_reject_witness :
    gbln_value_new_str [255] 10 ≠ Except.ok Value.null :=
  c10_utf8_reject [255] 10 rfl Value.null

end GBLN


